import Mathlib

/-!
Shallow embedding of FIFOEE (fifoee.h, primary one-bit-status variant):
a FIFO ring buffer of variable-size data blocks over a byte-addressable
storage region.

The region of `N` bytes is modelled as one anchor byte `botOffset`
(the cell at `pBotBlockOffset`, byte 0 of the region) plus `ring`, a list
of `rBufSize = N - 1` byte cells (`pRBufStart .. pRBufEnd - 1`), addressed
ring-relative: ring offset `p` stands for the C pointer `pRBufStart + p`,
so `pRBufEnd` corresponds to offset `rBufSize`.  Every stored cell value is
truncated `% 256` (the cells are `uint8_t`).  The RAM cursors `pPush`,
`pPop`, `pRead` are ring-relative offsets as well.
-/

/-- State of one FIFOEE instance: the persistent region (anchor byte plus
ring cells) and the volatile cursors. -/
structure FIFOEE where
  rBufSize : Nat
  botOffset : Nat
  ring : List Nat
  pPush : Nat
  pPop : Nat
  pRead : Nat
deriving DecidableEq, Repr

namespace FIFOEE

/-- Status code `SUCCESS = 0` of `enum returnStatus`. -/
def SUCCESS : Nat := 0

/-- Status code `FIFO_EMPTY = 1`. -/
def FIFO_EMPTY : Nat := 1

/-- Status code `FIFO_FULL = 2`. -/
def FIFO_FULL : Nat := 2

/-- Status code `INVALID_FIFO_BUFFER_SIZE = 3`. -/
def INVALID_FIFO_BUFFER_SIZE : Nat := 3

/-- Status code `INVALID_BLOCK_HEADER = 4`. -/
def INVALID_BLOCK_HEADER : Nat := 4

/-- Status code `DATA_BUFFER_SMALL = 5`. -/
def DATA_BUFFER_SMALL : Nat := 5

/-- Status code `PUSH_BLOCK_NOT_FREE = 6`. -/
def PUSH_BLOCK_NOT_FREE : Nat := 6

/-- Status code `UNCLOSED_BLOCK_LIST = 7`. -/
def UNCLOSED_BLOCK_LIST : Nat := 7

/-- Status code `WRONG_RBUFFER_SIZE = 8`. -/
def WRONG_RBUFFER_SIZE : Nat := 8


/-- The C idiom `while (pBlock >= pRBufEnd) pBlock -= rBufSize;` on a
ring-relative offset: repeated subtraction of `rBufSize`, i.e. `p % rBufSize`
for a positive `rBufSize` (for `rBufSize = 0` the C loop would not
terminate; that case never arises, all operations require `rBufSize ≥ 4`). -/
def wrapOff (p rBufSize : Nat) : Nat :=
  if rBufSize = 0 then p else p % rBufSize

/-- The C copy loop `for (pData = start; pData < stop; pData++)
EE_WRITE(pData, *data++);`, iterated `count = stop - start` times: writes
successive bytes of `data` into successive ring cells from `pData` on,
returning the updated ring and the advanced `data` pointer (the bytes not
yet consumed). -/
def copyToRing (ring : List Nat) (pData count : Nat) (data : List Nat) :
    List Nat × List Nat :=
  match count with
  | 0 => (ring, data)
  | c + 1 => copyToRing (ring.set pData (data.headD 0 % 256)) (pData + 1) c data.tail

/-- The C copy loop `for (pData = start; pData < stop; pData++)
*data++ = EE_READ(pData);`, iterated `count = stop - start` times: reads
successive ring cells from `pData` on, appending them to the bytes `acc`
already written to the caller's buffer. -/
def copyFromRing (ring : List Nat) (pData count : Nat) (acc : List Nat) :
    List Nat :=
  match count with
  | 0 => acc
  | c + 1 => copyFromRing ring (pData + 1) c (acc ++ [ring.getD pData 0])

/-- The fill loop of `format`: starting at `pBlock` with `sizeToFill` bytes
left, write free-block headers with data size 127 (`FREE_BLOCK |
FIFOEE_DATA_SIZE_MAX = 0xFF`) every `BLOCK_SIZE_MAX = 128` bytes while more
than 128 bytes remain, then one final free header covering the residue
(`FREE_BLOCK | sizeToFill - 1`). -/
def formatFill (ring : List Nat) (pBlock sizeToFill : Nat) : List Nat :=
  if 128 < sizeToFill then
    formatFill (ring.set pBlock 255) (pBlock + 128) (sizeToFill - 128)
  else
    ring.set pBlock ((128 ||| (sizeToFill - 1)) % 256)
termination_by sizeToFill
decreasing_by omega

/-- Method `format`: requires `rBufSize ≥ BUFFER_SIZE_MIN - 1 = 4`, clears
the anchor byte, resets all three cursors to the ring start and tiles the
ring with a chain of free blocks.  (The C function's success path falls off
the end of an `int` function; the intended status is `SUCCESS`.) -/
def format (f : FIFOEE) : Nat × FIFOEE :=
  if f.rBufSize < 4 then (INVALID_FIFO_BUFFER_SIZE, f)
  else
    (SUCCESS,
      { f with botOffset := 0, pPush := 0, pPop := 0, pRead := 0,
               ring := formatFill f.ring 0 f.rBufSize })

/-- The scan loop of `begin`.  Arguments mirror the C locals: `pBlock` is
the current block, `blockHeader` its header byte, `oldStatus` the running
status, `detected` the accumulated block sizes.  Each iteration advances
past the current block; on reaching `pRBufEnd` (offset `rBufSize`) it
checks closure of the block list and the size summation, otherwise it reads
the next header, rejects a zero header, accumulates its size and records
the cursor positions at status changes (free to used: head, so `pPop` and
`pRead`; used to free: tail, so `pPush`).  Returns the status and the final
`(pPush, pPop, pRead)`. -/
def beginLoop (ring : List Nat) (rBufSize pBotBlock : Nat)
    (pBlock blockHeader oldStatus detected pPush pPop pRead : Nat) :
    Nat × Nat × Nat × Nat :=
  let pB := pBlock + (blockHeader &&& 127) + 1
  if rBufSize ≤ pB then
    if pBotBlock ≠ pB - rBufSize then (UNCLOSED_BLOCK_LIST, pPush, pPop, pRead)
    else if rBufSize ≠ detected then (WRONG_RBUFFER_SIZE, pPush, pPop, pRead)
    else (SUCCESS, pPush, pPop, pRead)
  else
    let h := ring.getD pB 0
    if h = 0 then (INVALID_BLOCK_HEADER, pPush, pPop, pRead)
    else
      let st := h &&& 128
      let det := detected + (h &&& 127) + 1
      if oldStatus = st then
        beginLoop ring rBufSize pBotBlock pB h oldStatus det pPush pPop pRead
      else if oldStatus = 128 then
        beginLoop ring rBufSize pBotBlock pB h st det pPush pB pB
      else
        beginLoop ring rBufSize pBotBlock pB h st det pB pPop pRead
termination_by rBufSize - pBlock
decreasing_by
  all_goals omega

/-- Method `begin`: reads the anchor byte to find the bottommost block,
rejects a zero header there, initialises all three cursors to that block
and scans the whole block chain, placing the cursors at the status
transitions.  It writes no byte of the region; only the cursors change
(they are updated even on a scan error, as in the C code). -/
def begin (f : FIFOEE) : Nat × FIFOEE :=
  let pBotBlock := f.botOffset
  let blockHeader := f.ring.getD pBotBlock 0
  if blockHeader = 0 then (INVALID_BLOCK_HEADER, f)
  else
    let r := beginLoop f.ring f.rBufSize pBotBlock pBotBlock blockHeader
      (blockHeader &&& 128) ((blockHeader &&& 127) + 1) pBotBlock pBotBlock pBotBlock
    (r.1, { f with pPush := r.2.1, pPop := r.2.2.1, pRead := r.2.2.2 })

/-- The free-block coalescing loop of `push`: while the requested block
size `size + 1` exceeds the accumulated free size `blockSize`, step to the
block after the accumulated run (wrapping at the ring end); fail `FIFO_FULL`
(`none`) if that block is the push block itself or is not free, otherwise
merge its size and continue.  Also counts the iterations executed (second
component), for reasoning about the loop's termination. -/
def pushLoop (ring : List Nat) (rBufSize pPush size blockSize : Nat) :
    Option Nat × Nat :=
  if size + 1 > blockSize then
    let pBlock := wrapOff (pPush + blockSize) rBufSize
    if pBlock = pPush then (none, 0)
    else
      let h := ring.getD pBlock 0
      if h &&& 128 ≠ 128 then (none, 0)
      else
        let r := pushLoop ring rBufSize pPush size (blockSize + (h &&& 127) + 1)
        (r.1, r.2 + 1)
  else (some blockSize, 0)
termination_by size + 1 - blockSize
decreasing_by
  all_goals omega

/-- The payload-copy and commit part of `push` (the code after the
allocation succeeded, lines: copy given data, set header, update `pPush`
and the bottommost-block offset).  If the new block wraps at the ring end
the payload is written in two parts and the anchor byte is set to the
landing offset; then the used header `USED_BLOCK | size` is written at
`pPush` and `pPush` moves just past the payload, wrapping to offset 0 (and
clearing the anchor byte) when it lands exactly on `pRBufEnd`. -/
def pushCopy (f : FIFOEE) (data : List Nat) (size : Nat) : Nat × FIFOEE :=
  if f.pPush + size + 1 > f.rBufSize then
    let r1 := copyToRing f.ring (f.pPush + 1) (f.rBufSize - (f.pPush + 1)) data
    let r2 := copyToRing r1.1 0 (f.pPush + size + 1 - f.rBufSize) r1.2
    let pData := f.pPush + size + 1 - f.rBufSize
    let ring2 := r2.1.set f.pPush (size % 256)
    if pData < f.rBufSize then
      (SUCCESS, { f with ring := ring2, botOffset := pData % 256, pPush := pData })
    else
      (SUCCESS, { f with ring := ring2, botOffset := 0, pPush := 0 })
  else
    let r1 := copyToRing f.ring (f.pPush + 1) size data
    let pData := f.pPush + size + 1
    let ring2 := r1.1.set f.pPush (size % 256)
    if pData < f.rBufSize then
      (SUCCESS, { f with ring := ring2, pPush := pData })
    else
      (SUCCESS, { f with ring := ring2, botOffset := 0, pPush := 0 })

/-- Method `push`: the block at `pPush` must be free; consecutive free
blocks are merged until `size + 1` bytes are available (else `FIFO_FULL`).
If the merged run is strictly larger, a residual free-block header is
written after the allocation; if it fits exactly, the next block must be
free (else `FIFO_FULL`).  Then the payload is copied and committed by
`pushCopy`. -/
def push (f : FIFOEE) (data : List Nat) (size : Nat) : Nat × FIFOEE :=
  let blockHeader := f.ring.getD f.pPush 0
  if blockHeader &&& 128 ≠ 128 then (PUSH_BLOCK_NOT_FREE, f)
  else
    match (pushLoop f.ring f.rBufSize f.pPush size ((blockHeader &&& 127) + 1)).1 with
    | none => (FIFO_FULL, f)
    | some blockSize =>
      if size + 1 < blockSize then
        let pBlock := wrapOff (f.pPush + size + 1) f.rBufSize
        let ring1 := f.ring.set pBlock ((128 ||| (blockSize - size - 2)) % 256)
        pushCopy { f with ring := ring1 } data size
      else
        let pBlock := wrapOff (f.pPush + blockSize) f.rBufSize
        if pBlock = f.pPush then (FIFO_FULL, f)
        else if f.ring.getD pBlock 0 &&& 128 ≠ 128 then (FIFO_FULL, f)
        else pushCopy f data size

/-- Result of the private method `readData`: the returned status, the bytes
copied to the caller's buffer, the value left in `*size`, the final value
of the member `pBlock` (pointing at the next block) and the member
`blockSize` (the span of the block just read, used afterwards by `pop`). -/
structure ReadDataResult where
  status : Nat
  out : List Nat
  sizeOut : Nat
  pBlockOut : Nat
  blockSize : Nat
deriving DecidableEq, Repr

/-- Private method `readData`: copies all payload bytes of the block at
`pBlock` into the caller's buffer (in two parts when the block wraps at the
ring end), after checking that the caller's buffer size `sizeIn` suffices
(else `DATA_BUFFER_SMALL`, with nothing copied and `*size` unchanged).
Returns the copied data size and leaves `pBlock` at the next block,
wrapping to the ring start when the copy landed on `pRBufEnd`. -/
def readData (f : FIFOEE) (pBlock sizeIn : Nat) : ReadDataResult :=
  let blockSize := (f.ring.getD pBlock 0 &&& 127) + 1
  if blockSize - 1 > sizeIn then
    ⟨DATA_BUFFER_SMALL, [], sizeIn, pBlock, blockSize⟩
  else
    if pBlock + blockSize > f.rBufSize then
      let part1 := copyFromRing f.ring (pBlock + 1) (f.rBufSize - (pBlock + 1)) []
      let out := copyFromRing f.ring 0 (pBlock + blockSize - f.rBufSize) part1
      let pData := pBlock + blockSize - f.rBufSize
      ⟨SUCCESS, out, blockSize - 1, if pData < f.rBufSize then pData else 0, blockSize⟩
    else
      let out := copyFromRing f.ring (pBlock + 1) (blockSize - 1) []
      let pData := pBlock + blockSize
      ⟨SUCCESS, out, blockSize - 1, if pData < f.rBufSize then pData else 0, blockSize⟩

/-- Method `pop`: fails `FIFO_EMPTY` when `pPop == pPush`; otherwise copies
the block at `pPop` out via `readData`, marks it free again (same size),
drags `pRead` along when it sat on the popped block, and advances `pPop` to
the next block.  Returns (status, new state, bytes written to the caller's
buffer, value left in `*size`). -/
def pop (f : FIFOEE) (sizeIn : Nat) : Nat × FIFOEE × List Nat × Nat :=
  if f.pPop = f.pPush then (FIFO_EMPTY, f, [], sizeIn)
  else
    let r := readData f f.pPop sizeIn
    if r.status ≠ SUCCESS then (r.status, f, r.out, r.sizeOut)
    else
      let f1 := { f with ring := f.ring.set f.pPop ((128 ||| (r.blockSize - 1)) % 256) }
      let f2 := if f.pRead = f.pPop then { f1 with pRead := r.pBlockOut } else f1
      (SUCCESS, { f2 with pPop := r.pBlockOut }, r.out, r.sizeOut)

/-- Method `read`: fails `FIFO_EMPTY` when `pRead == pPush`; otherwise
copies the block at `pRead` out via `readData` and advances `pRead` to the
next block.  No header byte is mutated. -/
def read (f : FIFOEE) (sizeIn : Nat) : Nat × FIFOEE × List Nat × Nat :=
  if f.pRead = f.pPush then (FIFO_EMPTY, f, [], sizeIn)
  else
    let r := readData f f.pRead sizeIn
    if r.status ≠ SUCCESS then (r.status, f, r.out, r.sizeOut)
    else (SUCCESS, { f with pRead := r.pBlockOut }, r.out, r.sizeOut)

/-- Method `restartRead`: moves the read cursor back to the FIFO queue
head. -/
def restartRead (f : FIFOEE) : FIFOEE := { f with pRead := f.pPop }

/-! ### Auxiliary predicate and example-state definitions -/

/-! Definitions supporting the round-trip claim: the state reached by a
sequence of pushes on a freshly formatted region keeps all records laid
out consecutively from ring offset 0 (no push wraps in that scenario,
because a successful push always leaves at least one free block), with the
remaining space tiled by free blocks. -/

/-- Total number of ring bytes occupied by the given records, one header
byte plus the payload each. -/
def usedLen (recs : List (List Nat)) : Nat := (recs.map (fun r => r.length + 1)).sum

def usedRecAt (ring : List Nat) (p : Nat) (r : List Nat) : Prop :=
  ring.getD p 0 = r.length ∧ ∀ t, t < r.length → ring.getD (p + 1 + t) 0 = r.getD t 0

def usedChainAt (ring : List Nat) : Nat → List (List Nat) → Prop
  | _, [] => True
  | p, r :: rs => usedRecAt ring p r ∧ usedChainAt ring (p + (r.length + 1)) rs

def FreeTile (ring : List Nat) : Nat → List Nat → Prop
  | _, [] => True
  | p, s :: ss => 1 ≤ s ∧ s ≤ 128 ∧ ring.getD p 0 = 128 + (s - 1) ∧
      FreeTile ring (p + s) ss

def recWF (r : List Nat) : Prop := r.length ≤ 127 ∧ ∀ b ∈ r, b < 256

structure PushPhase (recs : List (List Nat)) (spans : List Nat) (f : FIFOEE) : Prop where
  rlen : f.ring.length = f.rBufSize
  hbot : f.botOffset = 0
  hpop : f.pPop = 0
  hread : f.pRead = 0
  hpush : f.pPush = usedLen recs
  recs_ok : usedChainAt f.ring 0 recs
  recs_wf : ∀ r ∈ recs, recWF r
  spans_ne : spans ≠ []
  spans_ok : FreeTile f.ring (usedLen recs) spans
  hsum : usedLen recs + spans.sum = f.rBufSize

structure PopPhase (todo : List (List Nat)) (P U : Nat) (f : FIFOEE) : Prop where
  rlen : f.ring.length = f.rBufSize
  hpop : f.pPop = P
  hread : f.pRead = P
  hpush : f.pPush = U
  hlt : U < f.rBufSize
  todo_ok : usedChainAt f.ring P todo
  todo_wf : ∀ r ∈ todo, recWF r
  hsum : P + usedLen todo = U

def pushSeq (f : FIFOEE) : List (List Nat) → Option FIFOEE
  | [] => some f
  | r :: rs =>
    let p := push f r r.length
    if p.1 = SUCCESS then pushSeq p.2 rs else none

def popSeq (f : FIFOEE) : List Nat → List (Nat × List Nat × Nat) × FIFOEE
  | [] => ([], f)
  | sz :: szs =>
    let p := pop f sz
    let rest := popSeq p.2.1 szs
    ((p.1, p.2.2.1, p.2.2.2) :: rest.1, rest.2)

/-- Chain Invariant 1 of §3, viewed from a block boundary `p` (used as the
hypothesis of the termination claim about the coalescing loop of `push`):
the spans `spans` tile the ring cyclically starting at the block whose
header sits at ring offset `p`; each listed span is the decoded span
`(header &&& 0x7f) + 1` of the block at its position, and positions
advance by the span, modulo the ring size. -/
def CycTile (ring : List Nat) (rBufSize : Nat) : Nat → List Nat → Prop
  | _, [] => True
  | p, s :: ss => p < rBufSize ∧ (ring.getD p 0 &&& 127) + 1 = s ∧ 1 ≤ s ∧
      CycTile ring rBufSize ((p + s) % rBufSize) ss

/-- The chain walk of `begin` in isolation: from the current block at
`pBlock` with header byte `blockHeader` and accumulated size sum `acc`,
follow the chain exactly as the scan loop of `begin` does, returning
`none` as soon as a zero header is read and otherwise `some` of the
accumulated sum of block sizes at the moment the walk steps past the ring
end. -/
def beginWalk (ring : List Nat) (rBufSize pBlock blockHeader acc : Nat) : Option Nat :=
  let pB := pBlock + (blockHeader &&& 127) + 1
  if rBufSize ≤ pB then some acc
  else
    let h := ring.getD pB 0
    if h = 0 then none
    else beginWalk ring rBufSize pB h (acc + (h &&& 127) + 1)
termination_by rBufSize - pBlock
decreasing_by
  all_goals omega

/-- The summed span of the chain walk from `botOffset`, exactly the
quantity `detectedRBufSize` accumulated by `begin`; `none` when the walk
reads a zero header. -/
def walkSum (f : FIFOEE) : Option Nat :=
  let h0 := f.ring.getD f.botOffset 0
  if h0 = 0 then none
  else beginWalk f.ring f.rBufSize f.botOffset h0 ((h0 &&& 127) + 1)


abbrev Blk := Bool × List Nat

def blkHeader (b : Blk) : Nat := (if b.1 then 128 else 0) + b.2.length

def blkSpan (b : Blk) : Nat := b.2.length + 1

def blkBytes (b : Blk) : List Nat := blkHeader b :: b.2

def render (bs : List Blk) : List Nat := (bs.map blkBytes).flatten

def spanSum (bs : List Blk) : Nat := (bs.map blkSpan).sum

def blkWF (b : Blk) : Prop :=
  b.2.length ≤ 127 ∧ (∀ x ∈ b.2, x < 256) ∧ (b.1 = false → 1 ≤ b.2.length)

def ringOf (bs : List Blk) (bot : Nat) : List Nat :=
  (render bs).drop ((render bs).length - bot) ++
    (render bs).take ((render bs).length - bot)

def lastSpan (bs : List Blk) : Nat := blkSpan (bs.getLastD (true, []))

structure ChainOK (f : FIFOEE) (bs : List Blk) : Prop where
  nonempty : bs ≠ []
  wf : ∀ b ∈ bs, blkWF b
  rsize : f.rBufSize = spanSum bs
  rring : f.ring = ringOf bs f.botOffset
  bot_lt : f.botOffset < lastSpan bs
  free_ex : ∃ b ∈ bs, b.1 = true

def startsFrom (p : Nat) : List Blk → List Nat
  | [] => []
  | b :: bs => p :: startsFrom (p + blkSpan b) bs

def HRun (ring : List Nat) : Nat → List Blk → Prop
  | _, [] => True
  | p, b :: bs => ring.getD p 0 = blkHeader b ∧ HRun ring (p + blkSpan b) bs

def allFree (bs : List Blk) : Prop := ∀ b ∈ bs, b.1 = true

def allUsed (bs : List Blk) : Prop := ∀ b ∈ bs, b.1 = false

instance (b : Blk) : Decidable (blkWF b) := by unfold blkWF; infer_instance

instance (bs : List Blk) : Decidable (allFree bs) := by unfold allFree; infer_instance

instance (bs : List Blk) : Decidable (allUsed bs) := by unfold allUsed; infer_instance

def CursorsOK (f : FIFOEE) (bs : List Blk) : Prop :=
  (∃ F1 U F2, bs = F1 ++ U ++ F2 ∧ allFree F1 ∧ allUsed U ∧ allFree F2 ∧
    ((U = [] ∧ f.pPush = f.pPop ∧ f.pRead = f.pPop ∧
       f.pPop ∈ startsFrom f.botOffset (F1 ++ U ++ F2)) ∨
     (U ≠ [] ∧ f.pPop = f.botOffset + spanSum F1 ∧
       f.pPush = (if F2 = [] then f.botOffset else f.botOffset + spanSum F1 + spanSum U) ∧
       (f.pRead ∈ startsFrom (f.botOffset + spanSum F1) U ∨ f.pRead = f.pPush)))) ∨
  (∃ U2 F U1, bs = U2 ++ F ++ U1 ∧ allUsed U2 ∧ allFree F ∧ allUsed U1 ∧
    U2 ≠ [] ∧ U1 ≠ [] ∧ F ≠ [] ∧
    f.pPop = f.botOffset + spanSum U2 + spanSum F ∧
    f.pPush = f.botOffset + spanSum U2 ∧
    (f.pRead ∈ startsFrom (f.botOffset + spanSum U2 + spanSum F) U1 ∨
     f.pRead ∈ startsFrom f.botOffset U2 ∨ f.pRead = f.pPush))

/-- The cursor updates performed by the scan of `begin`, as a pure fold
over the block chain: `oldSt` is the status of the previous block, `p` the
header offset of the next block to process, `cur` the cursor triple
`(pPush, pPop, pRead)`.  A free-to-used transition moves `pPop` and
`pRead` to the transition block; a used-to-free transition moves
`pPush`. -/
def curFold : Nat → Nat → Nat × Nat × Nat → List Blk → Nat × Nat × Nat
  | _, _, cur, [] => cur
  | oldSt, p, cur, b :: bs =>
    if oldSt = (if b.1 then 128 else 0) then
      curFold (if b.1 then 128 else 0) (p + blkSpan b) cur bs
    else if oldSt = 128 then
      curFold (if b.1 then 128 else 0) (p + blkSpan b) (cur.1, p, p) bs
    else
      curFold (if b.1 then 128 else 0) (p + blkSpan b) (p, cur.2.1, cur.2.2) bs

/-- The cursor triple `(pPush, pPop, pRead)` that the scan of `begin`
computes on a block chain anchored at `bot`. -/
def scanCursors (bot : Nat) : List Blk → Nat × Nat × Nat
  | [] => (bot, bot, bot)
  | b :: bs => curFold (if b.1 then 128 else 0) (bot + blkSpan b) (bot, bot, bot) bs

def wrapP (R x : Nat) : Nat := if x < R then x else x - R

def nextOf (R P len : Nat) : Nat :=
  if P + len + 1 < R then P + len + 1 else P + len + 1 - R

/-- A sequence of `read` calls, returning the (status, data, size) triple
of every call and the final state. -/
def readSeq (f : FIFOEE) : List Nat → List (Nat × List Nat × Nat) × FIFOEE
  | [] => ([], f)
  | sz :: szs =>
    let p := read f sz
    let rest := readSeq p.2.1 szs
    ((p.1, p.2.2.1, p.2.2.2) :: rest.1, rest.2)

/-- The FIFO queue as `read`/`pop` traverse it: a list of
(header offset, payload) pairs of used blocks of the chain, each linked to
the next by `readData`'s advance rule, ending at the push cursor.  The
third conjunct records that the spans of the remaining queue blocks avoid
the current block's header offset (blocks of a chain are disjoint), which
is what keeps `pop`'s header writes from disturbing later reads. -/
def QChain (bs : List Blk) (bot R pEnd : Nat) : Nat → List (Nat × List Nat) → Prop
  | pStart, [] => pStart = pEnd
  | pStart, (P, d) :: rest =>
      pStart = P ∧
      (∃ pre post, bs = pre ++ ((false : Bool), d) :: post ∧ P = bot + spanSum pre) ∧
      (∀ pd ∈ rest, ∀ t, t ≤ pd.2.length → wrapP R (pd.1 + t) ≠ P) ∧
      QChain bs bot R pEnd (nextOf R P d.length) rest

/-- The (header offset, payload) pairs of a run of blocks laid out
consecutively from `p`. -/
def runQ : Nat → List Blk → List (Nat × List Nat)
  | _, [] => []
  | p, b :: bs => (p, b.2) :: runQ (p + blkSpan b) bs

end FIFOEE

/-! ## General lemmas about the embedding's primitives -/

theorem and127_eq (h : Nat) : h &&& 127 = h % 128 := by
  have := Nat.and_pow_two_sub_one_eq_mod h 7
  norm_num at this
  exact this

theorem and128_eq (h : Nat) : h &&& 128 = 128 * (h / 128 % 2) := by
  have := Nat.and_two_pow h 7
  norm_num at this
  rw [this, Nat.testBit_to_div_mod]
  rcases Nat.mod_two_eq_zero_or_one (h / 128) with h2 | h2 <;> simp [h2]

theorem getD_set_eq {l : List Nat} {i : Nat} (v d : Nat) (h : i < l.length) :
    (l.set i v).getD i d = v := by
  rw [List.getD_eq_getElem _ _ (by simpa using h)]
  exact List.getElem_set_self _

theorem getD_set_ne {l : List Nat} {i j : Nat} (v d : Nat) (h : i ≠ j) :
    (l.set i v).getD j d = l.getD j d := by
  rcases Nat.lt_or_ge j l.length with hj | hj
  · rw [List.getD_eq_getElem _ _ (by simpa using hj),
        List.getD_eq_getElem _ _ hj]
    exact List.getElem_set_ne h _
  · rw [List.getD_eq_default _ _ (by simpa using hj), List.getD_eq_default _ _ hj]

theorem getD_zero (l : List Nat) : l.getD 0 0 = l.headD 0 := by
  cases l <;> rfl

theorem getD_tail (l : List Nat) (t : Nat) : l.tail.getD t 0 = l.getD (t + 1) 0 := by
  cases l <;> rfl

theorem FIFOEE.copyToRing_length (count : Nat) :
    ∀ (ring : List Nat) (pData : Nat) (data : List Nat),
      (FIFOEE.copyToRing ring pData count data).1.length = ring.length := by
  induction count with
  | zero => intro ring p data; rfl
  | succ c ih => intro ring p data; rw [FIFOEE.copyToRing, ih]; simp

theorem FIFOEE.copyToRing_data (count : Nat) :
    ∀ (ring : List Nat) (pData : Nat) (data : List Nat),
      (FIFOEE.copyToRing ring pData count data).2 = data.drop count := by
  induction count with
  | zero => intro ring p data; rfl
  | succ c ih =>
    intro ring p data
    rw [FIFOEE.copyToRing, ih, ← List.drop_one, List.drop_drop]
    congr 1
    omega

theorem FIFOEE.copyToRing_getD_lo (count : Nat) :
    ∀ (ring : List Nat) (pData : Nat) (data : List Nat) (q d : Nat), q < pData →
      (FIFOEE.copyToRing ring pData count data).1.getD q d = ring.getD q d := by
  induction count with
  | zero => intro ring p data q d _; rfl
  | succ c ih =>
    intro ring p data q d hq
    rw [FIFOEE.copyToRing, ih _ _ _ _ _ (by omega), getD_set_ne _ _ (by omega)]

theorem FIFOEE.copyToRing_getD_hi (count : Nat) :
    ∀ (ring : List Nat) (pData : Nat) (data : List Nat) (q d : Nat), pData + count ≤ q →
      (FIFOEE.copyToRing ring pData count data).1.getD q d = ring.getD q d := by
  induction count with
  | zero => intro ring p data q d _; rfl
  | succ c ih =>
    intro ring p data q d hq
    rw [FIFOEE.copyToRing, ih _ _ _ _ _ (by omega), getD_set_ne _ _ (by omega)]

theorem FIFOEE.copyToRing_getD_in (count : Nat) :
    ∀ (ring : List Nat) (pData : Nat) (data : List Nat) (q d : Nat),
      pData ≤ q → q < pData + count → q < ring.length →
      (FIFOEE.copyToRing ring pData count data).1.getD q d = data.getD (q - pData) 0 % 256 := by
  induction count with
  | zero => intro ring p data q d h1 h2 _; omega
  | succ c ih =>
    intro ring p data q d h1 h2 hlen
    rw [FIFOEE.copyToRing]
    rcases Nat.eq_or_lt_of_le h1 with rfl | hlt
    · rw [FIFOEE.copyToRing_getD_lo _ _ _ _ _ _ (by omega), getD_set_eq _ _ hlen,
        Nat.sub_self, getD_zero]
    · rw [ih _ _ _ _ _ (by omega) (by omega) (by simpa using hlen), getD_tail]
      have h3 : q - (p + 1) + 1 = q - p := by omega
      rw [h3]

theorem FIFOEE.copyFromRing_eq (count : Nat) :
    ∀ (ring : List Nat) (pData : Nat) (acc : List Nat),
      FIFOEE.copyFromRing ring pData count acc =
        acc ++ (List.range count).map (fun t => ring.getD (pData + t) 0) := by
  induction count with
  | zero => intro ring p acc; simp [FIFOEE.copyFromRing]
  | succ c ih =>
    intro ring p acc
    rw [FIFOEE.copyFromRing, ih, List.range_succ_eq_map, List.map_cons, List.map_map]
    simp only [List.append_assoc, List.singleton_append, Nat.add_zero]
    congr 2
    exact List.map_congr_left fun t _ => by
      simp only [Function.comp_apply]
      congr 1
      omega

theorem wrap_mod_eq {p k R : Nat} (hp : p < R) (hk : k ≤ R) :
    (p + k) % R = if p + k < R then p + k else p + k - R := by
  split
  next h => exact Nat.mod_eq_of_lt h
  next h =>
    rw [Nat.mod_eq_sub_mod (by omega), Nat.mod_eq_of_lt (by omega)]

theorem wrap_mod_ne {p k R : Nat} (hp : p < R) (hk : k < R) (h0 : 0 < k) :
    (p + k) % R ≠ p := by
  rw [wrap_mod_eq hp (by omega)]
  split <;> omega

/-! ## Theorems about the FIFOEE operations -/

namespace FIFOEE

theorem pushCopy_status (f : FIFOEE) (data : List Nat) (size : Nat) :
    (pushCopy f data size).1 = SUCCESS := by
  unfold pushCopy
  split <;> (dsimp only; split <;> rfl)

theorem readData_status (f : FIFOEE) (pBlock sizeIn : Nat) :
    (readData f pBlock sizeIn).status = SUCCESS ∨
      readData f pBlock sizeIn =
        ⟨DATA_BUFFER_SMALL, [], sizeIn, pBlock, (f.ring.getD pBlock 0 &&& 127) + 1⟩ := by
  unfold readData
  dsimp only
  split
  · exact Or.inr rfl
  · split <;> exact Or.inl rfl

theorem push_ok_or_frame (f : FIFOEE) (data : List Nat) (size : Nat) :
    (push f data size).1 = SUCCESS ∨ (push f data size).2 = f := by
  unfold push
  dsimp only
  split
  · exact Or.inr rfl
  · split
    · exact Or.inr rfl
    · split
      · exact Or.inl (pushCopy_status _ _ _)
      · split
        · exact Or.inr rfl
        · split
          · exact Or.inr rfl
          · exact Or.inl (pushCopy_status _ _ _)

theorem pop_ok_or_frame (f : FIFOEE) (sizeIn : Nat) :
    (pop f sizeIn).1 = SUCCESS ∨
      ((pop f sizeIn).2.1 = f ∧ (pop f sizeIn).2.2.1 = [] ∧
        (pop f sizeIn).2.2.2 = sizeIn) := by
  unfold pop
  dsimp only
  split
  · exact Or.inr ⟨rfl, rfl, rfl⟩
  · split
    · rcases readData_status f f.pPop sizeIn with hs | he
      · simp_all
      · rw [he]
        exact Or.inr ⟨rfl, rfl, rfl⟩
    · exact Or.inl rfl

theorem read_ok_or_frame (f : FIFOEE) (sizeIn : Nat) :
    (read f sizeIn).1 = SUCCESS ∨
      ((read f sizeIn).2.1 = f ∧ (read f sizeIn).2.2.1 = [] ∧
        (read f sizeIn).2.2.2 = sizeIn) := by
  unfold read
  dsimp only
  split
  · exact Or.inr ⟨rfl, rfl, rfl⟩
  · split
    · rcases readData_status f f.pRead sizeIn with hs | he
      · simp_all
      · rw [he]
        exact Or.inr ⟨rfl, rfl, rfl⟩
    · exact Or.inl rfl

/-- Claim C6: whenever `push`, `pop` or `read` returns a nonzero status
(`PushBlockNotFree`, `FifoFull`, `FifoEmpty` or `DataBufferSmall`), no byte
of the region (anchor byte or ring) is written, the destination buffer is
not written, and the cursors `pPush`, `pPop`, `pRead` are all unchanged.
Proved here for every state and every argument (so in particular for every
state satisfying the layout invariants): the whole resulting state equals
the input state, and the bytes delivered to the caller's buffer are `[]`
with `*size` left at its input value. -/
theorem claim6_error_frame (f : FIFOEE) (data : List Nat) (size sizeIn : Nat) :
    ((push f data size).1 ≠ SUCCESS → (push f data size).2 = f) ∧
    ((pop f sizeIn).1 ≠ SUCCESS →
      (pop f sizeIn).2.1 = f ∧ (pop f sizeIn).2.2.1 = [] ∧
      (pop f sizeIn).2.2.2 = sizeIn) ∧
    ((read f sizeIn).1 ≠ SUCCESS →
      (read f sizeIn).2.1 = f ∧ (read f sizeIn).2.2.1 = [] ∧
      (read f sizeIn).2.2.2 = sizeIn) :=
  ⟨fun h => (push_ok_or_frame f data size).resolve_left h,
   fun h => (pop_ok_or_frame f sizeIn).resolve_left h,
   fun h => (read_ok_or_frame f sizeIn).resolve_left h⟩

/-- Witness for C6 at a concrete input: on a state whose push block is not
free and whose queue is empty, `push`, `pop` and `read` all fail, and the
theorem yields the unchanged state and untouched buffer. -/
theorem claim6_error_frame_witness :
    (push ⟨4, 0, [0, 0, 0, 0], 0, 0, 0⟩ [7] 1).1 ≠ SUCCESS ∧
    (pop ⟨4, 0, [0, 0, 0, 0], 0, 0, 0⟩ 16).1 ≠ SUCCESS ∧
    (read ⟨4, 0, [0, 0, 0, 0], 0, 0, 0⟩ 16).1 ≠ SUCCESS ∧
    (push ⟨4, 0, [0, 0, 0, 0], 0, 0, 0⟩ [7] 1).2 = ⟨4, 0, [0, 0, 0, 0], 0, 0, 0⟩ ∧
    (pop ⟨4, 0, [0, 0, 0, 0], 0, 0, 0⟩ 16).2.2.1 = [] := by
  have h1 : (push ⟨4, 0, [0, 0, 0, 0], 0, 0, 0⟩ [7] 1).1 ≠ SUCCESS := by
    simp [push, SUCCESS, PUSH_BLOCK_NOT_FREE]
  have h2 : (pop ⟨4, 0, [0, 0, 0, 0], 0, 0, 0⟩ 16).1 ≠ SUCCESS := by
    simp [pop, SUCCESS, FIFO_EMPTY]
  have h3 : (read ⟨4, 0, [0, 0, 0, 0], 0, 0, 0⟩ 16).1 ≠ SUCCESS := by
    simp [read, SUCCESS, FIFO_EMPTY]
  exact ⟨h1, h2, h3,
    (claim6_error_frame ⟨4, 0, [0, 0, 0, 0], 0, 0, 0⟩ [7] 1 16).1 h1,
    ((claim6_error_frame ⟨4, 0, [0, 0, 0, 0], 0, 0, 0⟩ [7] 1 16).2.1 h2).2.1⟩

/-- Claim C9 is stated for a second push of ANY size; it fails for size 0:
on a freshly formatted region of total size `N = 5` (ring size 4), after a
successful 1-byte push, a second push of size 0 returns `Success` (writing
a zero header), not `FifoFull`. -/
theorem claim9_counterexample :
    (push (format ⟨4, 0, [0, 0, 0, 0], 0, 0, 0⟩).2 [7] 1).1 = SUCCESS ∧
    (push (push (format ⟨4, 0, [0, 0, 0, 0], 0, 0, 0⟩).2 [7] 1).2 [] 0).1 ≠
      FIFO_FULL := by
  refine ⟨?_, ?_⟩ <;>
    simp [format, formatFill, push, pushLoop, pushCopy, wrapOff, copyToRing,
      SUCCESS, FIFO_FULL, and127_eq, and128_eq]

/-- Claim C9 (amended: the second push must have size at least 1; a second
push of size 0 anomalously succeeds, see the counterexample): on a freshly
formatted region of total size `N = 5` (ring size `R = 4`), a single push
of one data byte returns `Success`; after it, a second push of any size
`n ≥ 1` returns `FifoFull`. -/
theorem claim9_minimum_buffer (g : FIFOEE) (b : Nat) (data : List Nat) (n : Nat)
    (hR : g.rBufSize = 4) (hlen : g.ring.length = 4) (hn : 1 ≤ n) :
    (push (format g).2 [b] 1).1 = SUCCESS ∧
    (push (push (format g).2 [b] 1).2 data n).1 = FIFO_FULL := by
  rcases g with ⟨R, bot, ring, p1, p2, p3⟩
  dsimp at hR hlen
  subst hR
  rcases ring with _ | ⟨a0, ring⟩; · simp at hlen
  rcases ring with _ | ⟨a1, ring⟩; · simp at hlen
  rcases ring with _ | ⟨a2, ring⟩; · simp at hlen
  rcases ring with _ | ⟨a3, ring⟩; · simp at hlen
  rcases ring with _ | ⟨a4, ring⟩
  swap
  · simp at hlen
  have hf1 : (push (format ⟨4, bot, [a0, a1, a2, a3], p1, p2, p3⟩).2 [b] 1).2 =
      ⟨4, 0, [1, b % 256, 129, a3], 2, 0, 0⟩ := by
    simp [format, formatFill, push, pushLoop, pushCopy, wrapOff, copyToRing,
      and127_eq, and128_eq]
  refine ⟨?_, ?_⟩
  · simp [format, formatFill, push, pushLoop, pushCopy, wrapOff, copyToRing, SUCCESS,
      and127_eq, and128_eq]
  · rw [hf1]
    rcases n with _ | n
    · omega
    rcases n with _ | m
    · simp [push, pushLoop, pushCopy, wrapOff, FIFO_FULL, and127_eq, and128_eq]
    · unfold push
      dsimp only
      rw [pushLoop.eq_def]
      have hc : (m + 1 + 1) + 1 > (129 &&& 127) + 1 := by
        rw [and127_eq]
        omega
      simp only [if_pos hc]
      simp [wrapOff, FIFO_FULL, and127_eq, and128_eq]

/-- Witness for the amended C9 at a concrete input: the all-zero initial
region of size 5, first push of byte 7, second push of one byte 9. -/
theorem claim9_minimum_buffer_witness :
    (push (format ⟨4, 0, [0, 0, 0, 0], 0, 0, 0⟩).2 [7] 1).1 = SUCCESS ∧
    (push (push (format ⟨4, 0, [0, 0, 0, 0], 0, 0, 0⟩).2 [7] 1).2 [9] 1).1 =
      FIFO_FULL :=
  claim9_minimum_buffer ⟨4, 0, [0, 0, 0, 0], 0, 0, 0⟩ 7 [9] 1 rfl rfl (by omega)


theorem push_cases (f : FIFOEE) (data : List Nat) (size : Nat) :
    ((push f data size).1 ≠ SUCCESS ∧ (push f data size).2 = f) ∨
    ((push f data size).1 = SUCCESS ∧ f.pPush < f.ring.length ∧
      ∃ rg : List Nat, push f data size = pushCopy { f with ring := rg } data size ∧
        rg.length = f.ring.length) := by
  unfold push
  dsimp only
  split
  · exact Or.inl ⟨by simp [SUCCESS, PUSH_BLOCK_NOT_FREE], rfl⟩
  next hfree =>
    have hlt : f.pPush < f.ring.length := by
      by_contra hge
      rw [List.getD_eq_default _ _ (by omega)] at hfree
      simp [Nat.zero_and] at hfree
    split
    · exact Or.inl ⟨by simp [SUCCESS, FIFO_FULL], rfl⟩
    · split
      · exact Or.inr ⟨pushCopy_status _ _ _, hlt, _, rfl, by simp⟩
      · split
        · exact Or.inl ⟨by simp [SUCCESS, FIFO_FULL], rfl⟩
        · split
          · exact Or.inl ⟨by simp [SUCCESS, FIFO_FULL], rfl⟩
          · exact Or.inr ⟨pushCopy_status _ _ _, hlt, f.ring, rfl, rfl⟩

theorem pushCopy_header (f : FIFOEE) (data : List Nat) (size : Nat)
    (h : f.pPush < f.ring.length) :
    (pushCopy f data size).2.ring.getD f.pPush 0 = size % 256 := by
  unfold pushCopy
  dsimp only
  split <;> split <;>
    (dsimp only; rw [getD_set_eq]; simp [copyToRing_length, h])

theorem push_success_header (f : FIFOEE) (data : List Nat) (size : Nat)
    (h : (push f data size).1 = SUCCESS) :
    (push f data size).2.ring.getD f.pPush 0 = size % 256 := by
  rcases push_cases f data size with ⟨hne, _⟩ | ⟨_, hlt, rg, heq, hl⟩
  · exact absurd h hne
  · rw [heq]
    exact pushCopy_header { f with ring := rg } data size (by dsimp only; rw [hl]; exact hlt)

theorem pushCopy_bot (f : FIFOEE) (data : List Nat) (size : Nat) :
    (f.pPush + size + 1 > f.rBufSize →
      ((f.pPush + size + 1 - f.rBufSize < f.rBufSize →
        (pushCopy f data size).2.botOffset = (f.pPush + size + 1 - f.rBufSize) % 256) ∧
       (f.rBufSize ≤ f.pPush + size + 1 - f.rBufSize →
        (pushCopy f data size).2.botOffset = 0))) ∧
    (f.pPush + size + 1 = f.rBufSize → (pushCopy f data size).2.botOffset = 0) ∧
    (f.pPush + size + 1 < f.rBufSize → (pushCopy f data size).2.botOffset = f.botOffset) := by
  unfold pushCopy
  dsimp only
  split
  next hsplit =>
    refine ⟨fun _ => ⟨fun hlo => ?_, fun hhi => ?_⟩, fun heq => by omega, fun hlt => by omega⟩
    · rw [if_pos hlo]
    · rw [if_neg (by omega)]
  next hsplit =>
    refine ⟨fun hgt => by omega, fun heq => ?_, fun hlt => ?_⟩
    · rw [if_neg (by omega)]
    · rw [if_pos (by omega)]

/-- Claim C3 names an invariant (no header byte is ever 0x00 after a
successful public operation) that the code itself relies on: `begin`
rejects a zero header as corruption ("used block cannot have zero size").
But `push` never validates its size argument, so a push of size 0 —
accepted with `Success` — writes the header byte `USED_BLOCK | 0 = 0x00`
at the old push block, and an immediately following `begin` on the very
region the library just produced fails with `InvalidBlockHeader`.
Concretely, on a freshly formatted region with ring size 9. -/
theorem claim3_zero_size_push_bug :
    (push (format ⟨9, 0, List.replicate 9 0, 0, 0, 0⟩).2 [] 0).1 = SUCCESS ∧
    (push (format ⟨9, 0, List.replicate 9 0, 0, 0, 0⟩).2 [] 0).2.ring.getD 0 0 = 0 ∧
    (begin (push (format ⟨9, 0, List.replicate 9 0, 0, 0, 0⟩).2 [] 0).2).1 =
      INVALID_BLOCK_HEADER := by
  refine ⟨?_, ?_, ?_⟩ <;>
    simp [format, formatFill, push, pushLoop, pushCopy, wrapOff, copyToRing, begin,
      beginLoop, SUCCESS, INVALID_BLOCK_HEADER, and127_eq, and128_eq]

set_option maxRecDepth 8000 in
set_option maxHeartbeats 1000000 in
/-- Claim C4 asserts the header written by a successful `push(data, n)`
decodes as used with `data_size = n` with no restriction on `n`.  The code
writes the single byte `USED_BLOCK | n`, truncated to `n % 256`, and never
checks `n ≤ 127`: on a ring of size 130 whose free chain is a 128-block
followed by a 2-block, a push of 128 bytes is accepted with `Success`, yet
the stored header byte is `128 = 0x80`, which decodes as a FREE block of
data size 0 — not as used with data size 128 (no byte can encode 128). -/
theorem claim4_counterexample :
    (push ⟨130, 0, ((List.replicate 130 0).set 0 255).set 128 129, 0, 0, 0⟩
        (List.replicate 128 7) 128).1 = SUCCESS ∧
    ¬((push ⟨130, 0, ((List.replicate 130 0).set 0 255).set 128 129, 0, 0, 0⟩
          (List.replicate 128 7) 128).2.ring.getD 0 0 &&& 128 = 0 ∧
      (push ⟨130, 0, ((List.replicate 130 0).set 0 255).set 128 129, 0, 0, 0⟩
          (List.replicate 128 7) 128).2.ring.getD 0 0 &&& 127 = 128) := by
  have hs : (push ⟨130, 0, ((List.replicate 130 0).set 0 255).set 128 129, 0, 0, 0⟩
      (List.replicate 128 7) 128).1 = SUCCESS := by
    simp [push, pushLoop, pushCopy, wrapOff, copyToRing, SUCCESS, and127_eq, and128_eq]
  refine ⟨hs, ?_⟩
  have hh := push_success_header _ (List.replicate 128 7) 128 hs
  dsimp only at hh
  rw [hh, and128_eq, and127_eq]
  omega

/-- Claim C4 (amended: restricted to `n ≤ 127`, the encodable range; for
`n ≥ 128` the stored byte is `n % 256` and the claim fails, see the
counterexample): for every call `push(data, n)` with `n ≤ 127` that
returns `Success`, the header byte stored at the block just allocated (the
old `pPush`) has status bit 0 (used) and size bits equal to `n`. -/
theorem claim4_push_header (f : FIFOEE) (data : List Nat) (n : Nat)
    (hn : n ≤ 127) (h : (push f data n).1 = SUCCESS) :
    (push f data n).2.ring.getD f.pPush 0 &&& 128 = 0 ∧
    (push f data n).2.ring.getD f.pPush 0 &&& 127 = n := by
  have hh := push_success_header f data n h
  rw [hh, Nat.mod_eq_of_lt (by omega)]
  rw [and128_eq, and127_eq]
  omega

/-- Witness for the amended C4 at a concrete input: pushing one byte on a
freshly formatted ring of size 9 stores header `0x01` (used, size 1). -/
theorem claim4_push_header_witness :
    (push (format ⟨9, 0, List.replicate 9 0, 0, 0, 0⟩).2 [5] 1).1 = SUCCESS ∧
    (push (format ⟨9, 0, List.replicate 9 0, 0, 0, 0⟩).2 [5] 1).2.ring.getD
      (format ⟨9, 0, List.replicate 9 0, 0, 0, 0⟩).2.pPush 0 &&& 128 = 0 ∧
    (push (format ⟨9, 0, List.replicate 9 0, 0, 0, 0⟩).2 [5] 1).2.ring.getD
      (format ⟨9, 0, List.replicate 9 0, 0, 0, 0⟩).2.pPush 0 &&& 127 = 1 := by
  have hs : (push (format ⟨9, 0, List.replicate 9 0, 0, 0, 0⟩).2 [5] 1).1 = SUCCESS := by
    simp [format, formatFill, push, pushLoop, pushCopy, wrapOff, copyToRing,
      SUCCESS, and127_eq, and128_eq]
  have h2 := claim4_push_header (format ⟨9, 0, List.replicate 9 0, 0, 0, 0⟩).2 [5] 1
    (by omega) hs
  exact ⟨hs, h2.1, h2.2⟩

/-- Claim C5 (amended to what the code maintains, which is also what §4.4
of the specification and `begin` require: the anchor byte names the block
with the LOWEST header offset — the landing offset of the wrapped payload —
not the header offset of the wrapping block itself, which is what the
claim's §3 wording asks for; see the counterexample): after every
successful public operation the anchor byte is maintained as follows.  A
successful `push` whose payload wraps past the ring end sets it to the
landing offset `pPush + n + 1 - R` (truncated to a byte, and reset to 0 in
the degenerate case where the landing offset reaches `R`); a push whose
payload ends exactly at the ring end resets it to 0; any other push leaves
it unchanged; `pop`, `read`, `restartRead` and `begin` never change it;
`format` zeroes it. -/
theorem claim5_bot_offset :
    (∀ (f : FIFOEE) (data : List Nat) (n : Nat),
      (push f data n).1 = SUCCESS →
        (f.pPush + n + 1 > f.rBufSize →
          ((f.pPush + n + 1 - f.rBufSize < f.rBufSize →
            (push f data n).2.botOffset = (f.pPush + n + 1 - f.rBufSize) % 256) ∧
           (f.rBufSize ≤ f.pPush + n + 1 - f.rBufSize →
            (push f data n).2.botOffset = 0))) ∧
        (f.pPush + n + 1 = f.rBufSize → (push f data n).2.botOffset = 0) ∧
        (f.pPush + n + 1 < f.rBufSize → (push f data n).2.botOffset = f.botOffset)) ∧
    (∀ (f : FIFOEE) (sizeIn : Nat), (pop f sizeIn).2.1.botOffset = f.botOffset) ∧
    (∀ (f : FIFOEE) (sizeIn : Nat), (read f sizeIn).2.1.botOffset = f.botOffset) ∧
    (∀ f : FIFOEE, (restartRead f).botOffset = f.botOffset) ∧
    (∀ f : FIFOEE, (begin f).2.botOffset = f.botOffset) ∧
    (∀ f : FIFOEE, (format f).1 = SUCCESS → (format f).2.botOffset = 0) := by
  refine ⟨?_, ?_, ?_, fun f => rfl, ?_, ?_⟩
  · intro f data n hs
    rcases push_cases f data n with ⟨hne, _⟩ | ⟨_, hlt, rg, heq, hl⟩
    · exact absurd hs hne
    · rw [heq]
      exact pushCopy_bot { f with ring := rg } data n
  · intro f sizeIn
    unfold pop
    dsimp only
    split
    · rfl
    · split
      · rfl
      · split <;> rfl
  · intro f sizeIn
    unfold read
    dsimp only
    split
    · rfl
    · split <;> rfl
  · intro f
    unfold begin
    dsimp only
    split <;> rfl
  · intro f hs
    unfold format at hs ⊢
    split
    next hlt =>
      rw [if_pos hlt] at hs
      exact absurd hs (by simp [SUCCESS, INVALID_FIFO_BUFFER_SIZE])
    next hge => rfl

/-- Witness for the amended C5 at a concrete input: the wrap push of §8
scenario 4 (ring size 9, free block at 0, used block at 4, free block at
8): pushing 3 bytes wraps the payload and sets the anchor byte to landing
offset 3; a pop leaves the anchor unchanged. -/
theorem claim5_bot_offset_witness :
    (push ⟨9, 0, [131, 0, 0, 0, 3, 7, 8, 9, 128], 8, 4, 4⟩ [10, 11, 12] 3).1 =
      SUCCESS ∧
    (push ⟨9, 0, [131, 0, 0, 0, 3, 7, 8, 9, 128], 8, 4, 4⟩ [10, 11, 12] 3).2.botOffset =
      (8 + 3 + 1 - 9) % 256 ∧
    (pop ⟨9, 0, [131, 0, 0, 0, 3, 7, 8, 9, 128], 8, 4, 4⟩ 16).2.1.botOffset = 0 := by
  have hs : (push ⟨9, 0, [131, 0, 0, 0, 3, 7, 8, 9, 128], 8, 4, 4⟩ [10, 11, 12] 3).1 =
      SUCCESS := by
    simp [push, pushLoop, pushCopy, wrapOff, copyToRing, SUCCESS, and127_eq, and128_eq]
  refine ⟨hs, ?_, ?_⟩
  · exact ((claim5_bot_offset.1 _ [10, 11, 12] 3 hs).1 (by dsimp only; omega)).1
      (by dsimp only; omega)
  · exact claim5_bot_offset.2.1 _ 16

theorem beginLoop_walk (ring : List Nat) (R pBot : Nat) (fuel : Nat) :
    ∀ (pBlock blockHeader oldStatus detected pPush pPop pRead : Nat),
      R - pBlock ≤ fuel →
      pBot + detected = pBlock + (blockHeader &&& 127) + 1 →
      (beginWalk ring R pBlock blockHeader detected = none →
        (beginLoop ring R pBot pBlock blockHeader oldStatus detected pPush pPop pRead).1 =
          INVALID_BLOCK_HEADER) ∧
      (∀ s, beginWalk ring R pBlock blockHeader detected = some s →
        (beginLoop ring R pBot pBlock blockHeader oldStatus detected pPush pPop pRead).1 =
          if s = R then SUCCESS else UNCLOSED_BLOCK_LIST) := by
  induction fuel with
  | zero =>
    intro pBlock bh old det p1 p2 p3 hfuel hinv
    have hexit : R ≤ pBlock + (bh &&& 127) + 1 := by omega
    unfold beginWalk beginLoop
    dsimp only
    rw [if_pos hexit, if_pos hexit]
    constructor
    · intro hnone
      exact absurd hnone (by simp)
    · intro s hsome
      have hs : s = det := by
        simpa using hsome.symm
      subst hs
      by_cases hd : s = R
      · rw [if_pos hd]
        rw [if_neg (by omega), if_neg (by omega)]
      · rw [if_neg hd]
        rw [if_pos (by omega)]
  | succ n ih =>
    intro pBlock bh old det p1 p2 p3 hfuel hinv
    by_cases hexit : R ≤ pBlock + (bh &&& 127) + 1
    · unfold beginWalk beginLoop
      dsimp only
      rw [if_pos hexit, if_pos hexit]
      constructor
      · intro hnone
        exact absurd hnone (by simp)
      · intro s hsome
        have hs : s = det := by simpa using hsome.symm
        subst hs
        by_cases hd : s = R
        · rw [if_pos hd]
          rw [if_neg (by omega), if_neg (by omega)]
        · rw [if_neg hd]
          rw [if_pos (by omega)]
    · unfold beginWalk beginLoop
      dsimp only
      rw [if_neg hexit, if_neg hexit]
      by_cases hz : ring.getD (pBlock + (bh &&& 127) + 1) 0 = 0
      · rw [if_pos hz, if_pos hz]
        exact ⟨fun _ => rfl, fun s hs => by simp at hs⟩
      · rw [if_neg hz, if_neg hz]
        have hinv2 : pBot + (det + (ring.getD (pBlock + (bh &&& 127) + 1) 0 &&& 127) + 1) =
            (pBlock + (bh &&& 127) + 1) +
              (ring.getD (pBlock + (bh &&& 127) + 1) 0 &&& 127) + 1 := by omega
        have hfuel2 : R - (pBlock + (bh &&& 127) + 1) ≤ n := by omega
        have hrec := ih (pBlock + (bh &&& 127) + 1)
          (ring.getD (pBlock + (bh &&& 127) + 1) 0) old
          (det + (ring.getD (pBlock + (bh &&& 127) + 1) 0 &&& 127) + 1) p1 p2 p3
          hfuel2 hinv2
        by_cases hst : old = ring.getD (pBlock + (bh &&& 127) + 1) 0 &&& 128
        · rw [if_pos hst]
          exact hrec
        · rw [if_neg hst]
          by_cases h128 : old = 128
          · rw [if_pos h128]
            exact ih _ _ _ _ _ _ _ hfuel2 hinv2
          · rw [if_neg h128]
            exact ih _ _ _ _ _ _ _ hfuel2 hinv2


theorem begin_status_walk (f : FIFOEE) :
    (walkSum f = none → (begin f).1 = INVALID_BLOCK_HEADER) ∧
    (∀ s, walkSum f = some s →
      (begin f).1 = if s = f.rBufSize then SUCCESS else UNCLOSED_BLOCK_LIST) := by
  unfold walkSum begin
  dsimp only
  by_cases h0 : f.ring.getD f.botOffset 0 = 0
  · rw [if_pos h0, if_pos h0]
    exact ⟨fun _ => rfl, fun s hs => by simp at hs⟩
  · rw [if_neg h0, if_neg h0]
    exact beginLoop_walk f.ring f.rBufSize f.botOffset (f.rBufSize - f.botOffset)
      f.botOffset (f.ring.getD f.botOffset 0) (f.ring.getD f.botOffset 0 &&& 128)
      ((f.ring.getD f.botOffset 0 &&& 127) + 1) f.botOffset f.botOffset f.botOffset
      (by omega) (by omega)

/-- Claim C7 says `begin` returns `WrongRingBufferSize` when the walk reads
only non-zero headers but the summed span differs from `R`; in the code
that check is unreachable, because the closure check fires first: the scan
exits at the first block position at or past `pRBufEnd`, where the position
equals `botOffset + detectedRBufSize`, so `pBotBlock != pBlock - rBufSize`
(the `UnclosedBlockList` check) is EQUIVALENT to `detectedRBufSize !=
rBufSize`.  Concretely: ring size 9 with two span-8 free blocks sums to 16
and `begin` returns `UnclosedBlockList`, not `WrongRingBufferSize`. -/
theorem claim7_counterexample :
    walkSum ⟨9, 0, [135, 0, 0, 0, 0, 0, 0, 0, 135], 0, 0, 0⟩ = some 16 ∧
    (16 : Nat) ≠ 9 ∧
    (begin ⟨9, 0, [135, 0, 0, 0, 0, 0, 0, 0, 135], 0, 0, 0⟩).1 ≠ WRONG_RBUFFER_SIZE ∧
    (begin ⟨9, 0, [135, 0, 0, 0, 0, 0, 0, 0, 135], 0, 0, 0⟩).1 = UNCLOSED_BLOCK_LIST := by
  refine ⟨?_, by omega, ?_, ?_⟩ <;>
    simp [walkSum, beginWalk, begin, beginLoop, and127_eq, and128_eq,
      WRONG_RBUFFER_SIZE, UNCLOSED_BLOCK_LIST]

/-- Claim C7 (amended: the status returned is `UnclosedBlockList`, not
`WrongRingBufferSize` — the size-summation check of `begin` is dead code,
subsumed by the closure check, so `WrongRingBufferSize` is never returned
at all): for every region whose chain walk from `botOffset` reads only
non-zero headers but whose summed span fails to equal the ring size,
`begin` returns `UnclosedBlockList`; and no region at all makes `begin`
return `WrongRingBufferSize`. -/
theorem claim7_wrong_ring_size :
    (∀ (f : FIFOEE) (s : Nat), walkSum f = some s → s ≠ f.rBufSize →
      (begin f).1 = UNCLOSED_BLOCK_LIST) ∧
    (∀ f : FIFOEE, (begin f).1 ≠ WRONG_RBUFFER_SIZE) := by
  constructor
  · intro f s hw hs
    rw [(begin_status_walk f).2 s hw, if_neg hs]
  · intro f
    rcases hw : walkSum f with _ | s
    · rw [(begin_status_walk f).1 hw]
      simp [INVALID_BLOCK_HEADER, WRONG_RBUFFER_SIZE]
    · rw [(begin_status_walk f).2 s hw]
      split <;> simp [SUCCESS, UNCLOSED_BLOCK_LIST, WRONG_RBUFFER_SIZE]

/-- Witness for the amended C7 at a concrete input: the two-span-8 region
whose chain sums to 16 over a ring of size 9. -/
theorem claim7_wrong_ring_size_witness :
    walkSum ⟨9, 0, [135, 0, 0, 0, 0, 0, 0, 0, 135], 0, 0, 0⟩ = some 16 ∧
    (begin ⟨9, 0, [135, 0, 0, 0, 0, 0, 0, 0, 135], 0, 0, 0⟩).1 =
      UNCLOSED_BLOCK_LIST := by
  have hw : walkSum ⟨9, 0, [135, 0, 0, 0, 0, 0, 0, 0, 135], 0, 0, 0⟩ = some 16 := by
    simp [walkSum, beginWalk, and127_eq]
  exact ⟨hw, claim7_wrong_ring_size.1 _ 16 hw (by dsimp only; omega)⟩



theorem pushLoop_tile (ring : List Nat) (R pPush : Nat) (hR : 0 < R) (hp : pPush < R) :
    ∀ (spans : List Nat) (P size : Nat),
      0 < P → P + spans.sum = R →
      CycTile ring R ((pPush + P) % R) spans →
      (pushLoop ring R pPush size P).2 ≤ spans.length ∧
      ((pushLoop ring R pPush size P).1 = none ∨
        ∃ B, (pushLoop ring R pPush size P).1 = some B ∧ size + 1 ≤ B ∧ B ≤ R ∧
          P + (pushLoop ring R pPush size P).2 ≤ B) := by
  intro spans
  induction spans with
  | nil =>
    intro P size hP hsum ht
    simp at hsum
    subst hsum
    unfold pushLoop
    dsimp only
    split
    next hgt =>
      rw [if_pos (show wrapOff (pPush + P) P = pPush by
        unfold wrapOff
        rw [if_neg (by omega), Nat.add_mod_right, Nat.mod_eq_of_lt hp])]
      exact ⟨by omega, Or.inl rfl⟩
    next hle =>
      exact ⟨by omega, Or.inr ⟨P, rfl, by omega, by omega, by omega⟩⟩
  | cons s ss ih =>
    intro P size hP hsum ht
    simp only [CycTile] at ht
    obtain ⟨hpos, hhdr, hs1, hrest⟩ := ht
    simp only [List.sum_cons] at hsum
    unfold pushLoop
    dsimp only
    split
    next hgt =>
      have hwrap : wrapOff (pPush + P) R = (pPush + P) % R := by
        unfold wrapOff
        rw [if_neg (by omega)]
      rw [hwrap]
      rw [if_neg (wrap_mod_ne hp (by omega) hP)]
      split
      next hused => exact ⟨by omega, Or.inl rfl⟩
      next hfree =>
        have hnext : ((pPush + P) % R + s) % R = (pPush + (P + s)) % R := by
          rw [Nat.mod_add_mod]
          congr 1
          omega
        have hb : P + (ring.getD ((pPush + P) % R) 0 &&& 127) + 1 = P + s := by
          omega
        rw [hb]
        have := ih (P + s) size (by omega) (by omega) (by rw [← hnext]; exact hrest)
        refine ⟨by simpa using Nat.add_le_add_right this.1 1, ?_⟩
        rcases this.2 with hnone | ⟨B, hB, h1, h2, h3⟩
        · exact Or.inl (by simpa using hnone)
        · exact Or.inr ⟨B, by simpa using hB, h1, h2, by simp; omega⟩
    next hle =>
      exact ⟨by omega, Or.inr ⟨P, rfl, by omega, by omega, by omega⟩⟩

/-- Claim C10: for every region state satisfying chain Invariant 1 (the
block spans tile the ring exactly, with the push cursor on a block
boundary — here as `CycTile` from `pPush` with spans summing to the ring
size) and every requested size, the free-block coalescing loop of `push`
(the function `pushLoop`, entered by `push` with the decoded span of the
block at `pPush` exactly as in the statement below) terminates: it
executes at most `rest.length` iterations — one full circuit of the
ring's remaining blocks — and exits either with `FifoFull` (`none`) or by
satisfying `size + 1 ≤ free_run_len`; moreover the accumulated
free-run length strictly increases across the iterations executed (the
final length exceeds the initial span by at least the iteration count). -/
theorem claim10_coalesce_terminates (f : FIFOEE) (size s1 : Nat) (rest : List Nat)
    (hR : 0 < f.rBufSize)
    (ht : CycTile f.ring f.rBufSize f.pPush (s1 :: rest))
    (hsum : (s1 :: rest).sum = f.rBufSize) :
    (pushLoop f.ring f.rBufSize f.pPush size ((f.ring.getD f.pPush 0 &&& 127) + 1)).2 ≤
      rest.length ∧
    ((pushLoop f.ring f.rBufSize f.pPush size ((f.ring.getD f.pPush 0 &&& 127) + 1)).1 = none ∨
      ∃ B, (pushLoop f.ring f.rBufSize f.pPush size ((f.ring.getD f.pPush 0 &&& 127) + 1)).1 =
          some B ∧ size + 1 ≤ B ∧ B ≤ f.rBufSize ∧
        ((f.ring.getD f.pPush 0 &&& 127) + 1) +
          (pushLoop f.ring f.rBufSize f.pPush size ((f.ring.getD f.pPush 0 &&& 127) + 1)).2 ≤ B) := by
  simp only [CycTile] at ht
  obtain ⟨hp, hhdr, hs1, hrest⟩ := ht
  simp only [List.sum_cons] at hsum
  rw [hhdr]
  exact pushLoop_tile f.ring f.rBufSize f.pPush hR hp rest s1 size (by omega) (by omega) hrest

theorem claim10_coalesce_terminates_witness :
    (pushLoop [131, 0, 0, 0, 132, 0, 0, 0, 0] 9 0 5
        (([131, 0, 0, 0, 132, 0, 0, 0, 0].getD 0 0 &&& 127) + 1)).2 ≤ 1 ∧
    ((pushLoop [131, 0, 0, 0, 132, 0, 0, 0, 0] 9 0 5
        (([131, 0, 0, 0, 132, 0, 0, 0, 0].getD 0 0 &&& 127) + 1)).1 = none ∨
      ∃ B, (pushLoop [131, 0, 0, 0, 132, 0, 0, 0, 0] 9 0 5
          (([131, 0, 0, 0, 132, 0, 0, 0, 0].getD 0 0 &&& 127) + 1)).1 = some B ∧
        5 + 1 ≤ B ∧ B ≤ 9 ∧
        (([131, 0, 0, 0, 132, 0, 0, 0, 0].getD 0 0 &&& 127) + 1) +
          (pushLoop [131, 0, 0, 0, 132, 0, 0, 0, 0] 9 0 5
            (([131, 0, 0, 0, 132, 0, 0, 0, 0].getD 0 0 &&& 127) + 1)).2 ≤ B) :=
  claim10_coalesce_terminates ⟨9, 0, [131, 0, 0, 0, 132, 0, 0, 0, 0], 0, 0, 0⟩ 5 4 [5]
    (by dsimp only; omega)
    (by norm_num [CycTile, and127_eq])
    (by norm_num)

theorem lor128 (x : Nat) (h : x ≤ 127) : 128 ||| x = 128 + x := by
  have hall : ∀ y < 128, 128 ||| y = 128 + y := by decide
  exact hall x (by omega)

theorem usedRecAt_congr {ring ring' : List Nat} {p : Nat} {r : List Nat}
    (hagree : ∀ q, p ≤ q → q < p + (r.length + 1) → ring'.getD q 0 = ring.getD q 0)
    (h : usedRecAt ring p r) : usedRecAt ring' p r := by
  refine ⟨?_, ?_⟩
  · rw [hagree p (by omega) (by omega)]
    exact h.1
  · intro t ht
    rw [hagree (p + 1 + t) (by omega) (by omega)]
    exact h.2 t ht

theorem usedChainAt_congr {ring ring' : List Nat} :
    ∀ {rs : List (List Nat)} {p : Nat},
    (∀ q, p ≤ q → q < p + usedLen rs → ring'.getD q 0 = ring.getD q 0) →
    usedChainAt ring p rs → usedChainAt ring' p rs := by
  intro rs
  induction rs with
  | nil => intro p _ _; trivial
  | cons r rs ih =>
    intro p hagree h
    obtain ⟨h1, h2⟩ := h
    have hul : usedLen (r :: rs) = (r.length + 1) + usedLen rs := by
      simp [usedLen]
    refine ⟨usedRecAt_congr (fun q hq1 hq2 => hagree q hq1 (by omega)) h1,
      ih (fun q hq1 hq2 => hagree q (by omega) (by omega)) h2⟩

theorem FreeTile_congr {ring ring' : List Nat} :
    ∀ {ss : List Nat} {p : Nat},
    (∀ q, p ≤ q → q < p + ss.sum → ring'.getD q 0 = ring.getD q 0) →
    FreeTile ring p ss → FreeTile ring' p ss := by
  intro ss
  induction ss with
  | nil => intro p _ _; trivial
  | cons s ss ih =>
    intro p hagree h
    obtain ⟨h1, h2, h3, h4⟩ := h
    refine ⟨h1, h2, ?_, ih (fun q hq1 hq2 => hagree q (by omega) (by simp at hq2 ⊢; omega)) h4⟩
    rw [hagree p (by omega) (by simp; omega)]
    exact h3

theorem usedChainAt_append {ring : List Nat} :
    ∀ {rs1 rs2 : List (List Nat)} {p : Nat},
    usedChainAt ring p (rs1 ++ rs2) ↔
      (usedChainAt ring p rs1 ∧ usedChainAt ring (p + usedLen rs1) rs2) := by
  intro rs1
  induction rs1 with
  | nil =>
    intro rs2 p
    simp [usedChainAt, usedLen]
  | cons r rs ih =>
    intro rs2 p
    have hpos : p + (r.length + 1) + usedLen rs = p + usedLen (r :: rs) := by
      simp [usedLen]
      omega
    constructor
    · intro h
      simp only [List.cons_append, List.append_eq, usedChainAt] at h ⊢
      obtain ⟨h1, h2⟩ := h
      rw [ih] at h2
      exact ⟨⟨h1, h2.1⟩, hpos ▸ h2.2⟩
    · intro h
      simp only [List.cons_append, List.append_eq, usedChainAt] at h ⊢
      obtain ⟨⟨h1, h2⟩, h3⟩ := h
      exact ⟨h1, ih.mpr ⟨h2, hpos ▸ h3⟩⟩

theorem copyFromRing_rec {ring : List Nat} {p : Nat} {r : List Nat}
    (h : usedRecAt ring p r) :
    copyFromRing ring (p + 1) r.length [] = r := by
  rw [copyFromRing_eq]
  simp only [List.nil_append]
  apply List.ext_getElem
  · simp
  · intro i h1 h2
    simp only [List.getElem_map, List.getElem_range]
    rw [← List.getD_eq_getElem _ 0 h2]
    exact h.2 i (by simpa using h1)

theorem formatFill_getD_lo (sizeToFill : Nat) :
    ∀ (ring : List Nat) (pBlock q d : Nat), q < pBlock →
      (formatFill ring pBlock sizeToFill).getD q d = ring.getD q d := by
  induction sizeToFill using Nat.strong_induction_on with
  | _ s ih =>
    intro ring pBlock q d hq
    unfold formatFill
    split
    next hgt =>
      rw [ih (s - 128) (by omega) _ _ _ _ (by omega), getD_set_ne _ _ (by omega)]
    next hle =>
      rw [getD_set_ne _ _ (by omega)]

theorem formatFill_length (sizeToFill : Nat) :
    ∀ (ring : List Nat) (pBlock : Nat),
      (formatFill ring pBlock sizeToFill).length = ring.length := by
  induction sizeToFill using Nat.strong_induction_on with
  | _ s ih =>
    intro ring pBlock
    unfold formatFill
    split
    next hgt => rw [ih (s - 128) (by omega)]; simp
    next hle => simp

theorem formatFill_tile (sizeToFill : Nat) :
    ∀ (ring : List Nat) (pBlock : Nat), 1 ≤ sizeToFill →
      pBlock + sizeToFill ≤ ring.length →
      ∃ spans : List Nat, spans ≠ [] ∧ spans.sum = sizeToFill ∧
        FreeTile (formatFill ring pBlock sizeToFill) pBlock spans := by
  induction sizeToFill using Nat.strong_induction_on with
  | _ s ih =>
    intro ring pBlock h1 h2
    unfold formatFill
    split
    next hgt =>
      obtain ⟨spans, hne, hsum, htile⟩ := ih (s - 128) (by omega) (ring.set pBlock 255)
        (pBlock + 128) (by omega) (by simp; omega)
      refine ⟨128 :: spans, by simp, by simp [hsum]; omega, ?_, ?_, ?_, htile⟩
      · omega
      · omega
      · rw [formatFill_getD_lo _ _ _ _ _ (by omega), getD_set_eq _ _ (by omega)]
    next hle =>
      refine ⟨[s], by simp, by simp, ?_, ?_, ?_, trivial⟩
      · omega
      · omega
      · rw [getD_set_eq _ _ (by omega), lor128 _ (by omega),
          Nat.mod_eq_of_lt (by omega)]

theorem format_phase (f : FIFOEE) (h4 : 4 ≤ f.rBufSize) (hl : f.ring.length = f.rBufSize) :
    ∃ spans, PushPhase [] spans (format f).2 := by
  unfold format
  rw [if_neg (by omega)]
  obtain ⟨spans, hne, hsum, htile⟩ := formatFill_tile f.rBufSize f.ring 0 (by omega) (by omega)
  exact ⟨spans,
    { rlen := by dsimp only; rw [formatFill_length]; exact hl
      hbot := rfl
      hpop := rfl
      hread := rfl
      hpush := rfl
      recs_ok := trivial
      recs_wf := by simp
      spans_ne := hne
      spans_ok := htile
      hsum := by dsimp only; simpa [usedLen] using hsum }⟩

theorem pushLoop_free (ring : List Nat) (R U size : Nat) (hUR : U < R)
    (hzero : U = 0 ∨ ring.getD 0 0 < 128) :
    ∀ (spans : List Nat) (P : Nat),
      0 < P → P ≤ size + 128 → U + P + spans.sum = R →
      FreeTile ring (U + P) spans →
      (pushLoop ring R U size P).1 = none ∨
      ∃ B ss', (pushLoop ring R U size P).1 = some B ∧
        size + 1 ≤ B ∧ B ≤ size + 128 ∧
        (∃ taken, spans = taken ++ ss' ∧ B = P + taken.sum) ∧
        FreeTile ring (U + B) ss' ∧ U + B + ss'.sum = R := by
  intro spans
  induction spans with
  | nil =>
    intro P hP hP2 hsum ht
    simp only [List.sum_nil] at hsum
    unfold pushLoop
    dsimp only
    split
    next hgt =>
      have hw : wrapOff (U + P) R = 0 := by
        unfold wrapOff
        rw [if_neg (by omega), show U + P = R by omega, Nat.mod_self]
      rw [hw]
      by_cases hU : (0 : Nat) = U
      · rw [if_pos hU]
        exact Or.inl rfl
      · rw [if_neg hU]
        rcases hzero with h0 | hlt
        · omega
        · rw [if_pos (by rw [and128_eq]; omega)]
          exact Or.inl rfl
    next hle =>
      exact Or.inr ⟨P, [], rfl, by omega, by omega, ⟨[], by simp, by simp⟩, trivial,
        by simpa using hsum⟩
  | cons s ss ih =>
    intro P hP hP2 hsum ht
    simp only [FreeTile] at ht
    obtain ⟨hs1, hs128, hhdr, htl⟩ := ht
    simp only [List.sum_cons] at hsum
    unfold pushLoop
    dsimp only
    split
    next hgt =>
      have hw : wrapOff (U + P) R = U + P := by
        unfold wrapOff
        rw [if_neg (by omega)]
        exact Nat.mod_eq_of_lt (by omega)
      rw [hw, if_neg (by omega)]
      rw [if_neg (by rw [hhdr, and128_eq]; omega)]
      have hb : P + (ring.getD (U + P) 0 &&& 127) + 1 = P + s := by
        rw [hhdr, and127_eq]
        omega
      rw [hb]
      have hrec := ih (P + s) (by omega) (by omega) (by omega)
        (by rw [show U + (P + s) = U + P + s by omega]; exact htl)
      rcases hrec with hnone | ⟨B, ss', h1, h2, h3, ⟨taken, ht1, ht2⟩, h5, h6⟩
      · exact Or.inl (by simpa using hnone)
      · refine Or.inr ⟨B, ss', by simpa using h1, h2, h3,
          ⟨s :: taken, by simp [ht1], by simp; omega⟩, h5, h6⟩
    next hle =>
      refine Or.inr ⟨P, s :: ss, rfl, by omega, by omega, ⟨[], by simp, by simp⟩, ?_, by simp; omega⟩
      simp only [FreeTile]
      exact ⟨hs1, hs128, hhdr, htl⟩

theorem usedLen_append (a b : List (List Nat)) :
    usedLen (a ++ b) = usedLen a + usedLen b := by
  simp [usedLen]

theorem usedLen_nil : usedLen [] = 0 := rfl

theorem usedLen_singleton (r : List Nat) : usedLen [r] = r.length + 1 := by
  simp [usedLen]

theorem pushCopy_phase (g : FIFOEE) (recs : List (List Nat)) (data : List Nat)
    (spans' : List Nat)
    (hlen : g.ring.length = g.rBufSize)
    (hbot : g.botOffset = 0) (hpop : g.pPop = 0) (hread : g.pRead = 0)
    (hpush : g.pPush = usedLen recs)
    (hrecs : usedChainAt g.ring 0 recs)
    (hrwf : ∀ r ∈ recs, recWF r) (hdwf : recWF data)
    (hspans : FreeTile g.ring (usedLen recs + data.length + 1) spans')
    (hne : spans' ≠ [])
    (hsum : usedLen recs + data.length + 1 + spans'.sum = g.rBufSize) :
    (pushCopy g data data.length).1 = SUCCESS ∧
    PushPhase (recs ++ [data]) spans' (pushCopy g data data.length).2 := by
  have heq2 : usedLen (recs ++ [data]) = usedLen recs + data.length + 1 := by
    rw [usedLen_append, usedLen_singleton]
    omega
  have hssum : 1 ≤ spans'.sum := by
    rcases spans' with _ | ⟨s, ss⟩
    · exact absurd rfl hne
    · simp only [FreeTile] at hspans
      simp only [List.sum_cons]
      omega
  have hUn : usedLen recs + data.length + 1 < g.rBufSize := by omega
  unfold pushCopy
  dsimp only
  rw [hpush]
  rw [if_neg (by omega), if_pos (by omega)]
  refine ⟨rfl, ?_⟩
  have hag_lo : ∀ q, q < usedLen recs →
      ((copyToRing g.ring (usedLen recs + 1) data.length data).1.set (usedLen recs)
        (data.length % 256)).getD q 0 = g.ring.getD q 0 := by
    intro q hq
    rw [getD_set_ne _ _ (by omega), copyToRing_getD_lo _ _ _ _ _ _ (by omega)]
  have hag_hi : ∀ q, usedLen recs + data.length + 1 ≤ q →
      ((copyToRing g.ring (usedLen recs + 1) data.length data).1.set (usedLen recs)
        (data.length % 256)).getD q 0 = g.ring.getD q 0 := by
    intro q hq
    rw [getD_set_ne _ _ (by omega), copyToRing_getD_hi _ _ _ _ _ _ (by omega)]
  refine
    { rlen := by dsimp only; rw [List.length_set, copyToRing_length]; exact hlen
      hbot := hbot
      hpop := hpop
      hread := hread
      hpush := by dsimp only; rw [heq2]
      recs_ok := ?_
      recs_wf := ?_
      spans_ne := hne
      spans_ok := ?_
      hsum := by
        dsimp only
        rw [heq2]
        omega }
  · rw [usedChainAt_append]
    refine ⟨usedChainAt_congr (fun q h1 h2 => hag_lo q (by omega)) hrecs, ?_⟩
    simp only [usedChainAt, Nat.zero_add]
    refine ⟨⟨?_, ?_⟩, trivial⟩
    · rw [getD_set_eq _ _ (by rw [copyToRing_length, hlen]; omega)]
      exact Nat.mod_eq_of_lt (by have := hdwf.1; omega)
    · intro t ht
      rw [getD_set_ne _ _ (by omega),
        copyToRing_getD_in _ _ _ _ _ _ (by omega) (by omega) (by rw [hlen]; omega)]
      have harr : usedLen recs + 1 + t - (usedLen recs + 1) = t := by omega
      rw [harr]
      have hmem : data.getD t 0 ∈ data := by
        rw [List.getD_eq_getElem _ _ ht]
        exact List.getElem_mem _
      exact Nat.mod_eq_of_lt (hdwf.2 _ hmem)
  · intro r hr
    rcases List.mem_append.mp hr with h | h
    · exact hrwf r h
    · simp at h
      subst h
      exact hdwf
  · rw [heq2]
    exact FreeTile_congr (fun q h1 _ => hag_hi q h1) hspans

theorem push_phase_step (recs : List (List Nat)) (spans : List Nat) (f : FIFOEE)
    (data : List Nat) (hph : PushPhase recs spans f) (hdwf : recWF data) :
    (push f data data.length).1 ≠ SUCCESS ∨
    ∃ spans', PushPhase (recs ++ [data]) spans' (push f data data.length).2 := by
  obtain ⟨rlen, hbot, hpop, hread, hpush, recs_ok, recs_wf, spans_ne, spans_ok, hsum⟩ := hph
  rcases spans with _ | ⟨s1, ss⟩
  · exact absurd rfl spans_ne
  simp only [FreeTile] at spans_ok
  obtain ⟨hs1, hs128, hhdr, htl⟩ := spans_ok
  simp only [List.sum_cons] at hsum
  have hz : usedLen recs = 0 ∨ f.ring.getD 0 0 < 128 := by
    cases recs with
    | nil => left; rw [usedLen_nil]
    | cons r rs =>
      right
      simp only [usedChainAt] at recs_ok
      rw [recs_ok.1.1]
      have := (recs_wf r (by simp)).1
      omega
  have hUR : usedLen recs < f.rBufSize := by omega
  unfold push
  dsimp only
  rw [hpush, hhdr]
  rw [if_neg (by rw [and128_eq]; omega)]
  have hbs : ((128 + (s1 - 1)) &&& 127) + 1 = s1 := by
    rw [and127_eq]
    omega
  rw [hbs]
  have hpl := pushLoop_free f.ring f.rBufSize (usedLen recs) data.length hUR hz ss s1
    (by omega) (by omega) (by omega) htl
  rcases hpl with hnone | ⟨B, ss', h1, h2, h3, _, h5, h6⟩
  · rw [hnone]
    exact Or.inl (by simp [SUCCESS, FIFO_FULL])
  · rw [h1]
    dsimp only
    by_cases hlt : data.length + 1 < B
    · rw [if_pos hlt]
      have hwr : wrapOff (usedLen recs + data.length + 1) f.rBufSize =
          usedLen recs + data.length + 1 := by
        unfold wrapOff
        rw [if_neg (by omega)]
        exact Nat.mod_eq_of_lt (by omega)
      rw [hwr]
      have hval : (128 ||| (B - data.length - 2)) % 256 = 128 + (B - data.length - 2) := by
        rw [lor128 _ (by omega)]
        exact Nat.mod_eq_of_lt (by omega)
      rw [hval]
      right
      have hft : FreeTile (f.ring.set (usedLen recs + data.length + 1)
          (128 + (B - data.length - 2))) (usedLen recs + data.length + 1)
          ((B - data.length - 1) :: ss') := by
        simp only [FreeTile]
        refine ⟨by omega, by omega, ?_, ?_⟩
        · rw [getD_set_eq _ _ (by rw [rlen]; omega)]
          omega
        · have hpos : usedLen recs + data.length + 1 + (B - data.length - 1) =
              usedLen recs + B := by omega
          rw [hpos]
          exact FreeTile_congr (fun q hq1 hq2 => getD_set_ne _ _ (by omega)) h5
      have hcp := pushCopy_phase
        { f with
            ring := (f.ring.set (usedLen recs + data.length + 1)
              (128 + (B - data.length - 2))),
            pPush := usedLen recs }
        recs data ((B - data.length - 1) :: ss')
        (by simp [rlen])
        hbot hpop hread rfl
        (usedChainAt_congr
          (fun q hq1 hq2 => getD_set_ne _ _ (by omega)) recs_ok)
        recs_wf hdwf
        hft (by simp) (by dsimp only; simp only [List.sum_cons]; omega)
      exact ⟨_, hcp.2⟩
    · rw [if_neg hlt]
      have hBeq : B = data.length + 1 := by omega
      rcases ss' with _ | ⟨s2, ss2⟩
      · simp only [List.sum_nil] at h6
        have hw0 : wrapOff (usedLen recs + B) f.rBufSize = 0 := by
          unfold wrapOff
          rw [if_neg (by omega), show usedLen recs + B = f.rBufSize by omega,
            Nat.mod_self]
        rw [hw0]
        by_cases hU0 : usedLen recs = 0
        · rw [if_pos hU0.symm]
          exact Or.inl (by simp [SUCCESS, FIFO_FULL])
        · rw [if_neg (fun hh => hU0 hh.symm)]
          rcases hz with h0 | hlt0
          · exact absurd h0 hU0
          · rw [if_pos (by rw [and128_eq]; omega)]
            exact Or.inl (by simp [SUCCESS, FIFO_FULL])
      · simp only [FreeTile] at h5
        obtain ⟨h21, h2128, h2hdr, h2tl⟩ := h5
        simp only [List.sum_cons] at h6
        have hwB : wrapOff (usedLen recs + B) f.rBufSize = usedLen recs + B := by
          unfold wrapOff
          rw [if_neg (by omega)]
          exact Nat.mod_eq_of_lt (by omega)
        rw [hwB, if_neg (by omega), h2hdr]
        rw [if_neg (by rw [and128_eq]; omega)]
        right
        have hft : FreeTile f.ring (usedLen recs + data.length + 1) (s2 :: ss2) := by
          have hpos : usedLen recs + data.length + 1 = usedLen recs + B := by omega
          rw [hpos]
          simp only [FreeTile]
          exact ⟨h21, h2128, h2hdr, h2tl⟩
        have hcp := pushCopy_phase f recs data (s2 :: ss2) rlen hbot hpop hread hpush
          recs_ok recs_wf hdwf
          hft (by simp) (by simp only [List.sum_cons]; omega)
        exact ⟨_, hcp.2⟩

theorem usedLen_cons (r : List Nat) (rs : List (List Nat)) :
    usedLen (r :: rs) = (r.length + 1) + usedLen rs := by
  simp [usedLen]

theorem readData_rec (f : FIFOEE) (P sizeIn : Nat) (r : List Nat)
    (hrec : usedRecAt f.ring P r) (hr : r.length ≤ 127) (hsz : r.length ≤ sizeIn)
    (hbound : P + r.length + 1 < f.rBufSize) :
    readData f P sizeIn = ⟨SUCCESS, r, r.length, P + r.length + 1, r.length + 1⟩ := by
  unfold readData
  dsimp only
  have hbs : (f.ring.getD P 0 &&& 127) + 1 = r.length + 1 := by
    rw [hrec.1, and127_eq]
    omega
  rw [hbs]
  rw [if_neg (by omega), if_neg (by omega)]
  have harr : r.length + 1 - 1 = r.length := by omega
  rw [harr, copyFromRing_rec hrec, if_pos (by omega)]
  have hpd : P + (r.length + 1) = P + r.length + 1 := by omega
  rw [hpd]

theorem pop_phase_step (todo : List (List Nat)) (r : List Nat) (P U : Nat) (f : FIFOEE)
    (hph : PopPhase (r :: todo) P U f) (sizeIn : Nat) (hsz : r.length ≤ sizeIn) :
    (pop f sizeIn).1 = SUCCESS ∧ (pop f sizeIn).2.2.1 = r ∧
    (pop f sizeIn).2.2.2 = r.length ∧
    PopPhase todo (P + (r.length + 1)) U (pop f sizeIn).2.1 := by
  obtain ⟨rlen, hpop, hread, hpush, hlt, todo_ok, todo_wf, hsum⟩ := hph
  simp only [usedChainAt] at todo_ok
  obtain ⟨hrec, hrest⟩ := todo_ok
  have hwfr := todo_wf r (by simp)
  have h127 : r.length ≤ 127 := hwfr.1
  rw [usedLen_cons] at hsum
  have hrd := readData_rec f P sizeIn r hrec hwfr.1 hsz (by omega)
  unfold pop
  dsimp only
  rw [hpop, hpush, hread]
  rw [if_neg (by omega)]
  rw [hrd]
  dsimp only
  rw [if_neg (by simp [SUCCESS])]
  rw [if_pos rfl]
  have hv : (128 ||| (r.length + 1 - 1)) % 256 = 128 + r.length := by
    rw [show r.length + 1 - 1 = r.length by omega, lor128 _ hwfr.1]
    exact Nat.mod_eq_of_lt (by omega)
  rw [hv]
  refine ⟨rfl, rfl, rfl, ?_⟩
  refine
    { rlen := by dsimp only; rw [List.length_set]; exact rlen
      hpop := by dsimp only; omega
      hread := by dsimp only; omega
      hpush := rfl
      hlt := hlt
      todo_ok := ?_
      todo_wf := fun q hq => todo_wf q (by simp [hq])
      hsum := by omega }
  · exact usedChainAt_congr (fun q h1 h2 => getD_set_ne _ _ (by omega)) hrest

theorem FreeTile_sum_pos {ring : List Nat} {p : Nat} {spans : List Nat}
    (ht : FreeTile ring p spans) (hne : spans ≠ []) : 1 ≤ spans.sum := by
  rcases spans with _ | ⟨s, ss⟩
  · exact absurd rfl hne
  · simp only [FreeTile] at ht
    simp only [List.sum_cons]
    omega

theorem pushSeq_phase :
    ∀ (rs recs : List (List Nat)) (spans : List Nat) (f f1 : FIFOEE),
      PushPhase recs spans f → (∀ r ∈ rs, recWF r) →
      pushSeq f rs = some f1 →
      ∃ spans1, PushPhase (recs ++ rs) spans1 f1 := by
  intro rs
  induction rs with
  | nil =>
    intro recs spans f f1 hph _ hseq
    simp only [pushSeq, Option.some.injEq] at hseq
    subst hseq
    exact ⟨spans, by simpa using hph⟩
  | cons r rs ih =>
    intro recs spans f f1 hph hwf hseq
    unfold pushSeq at hseq
    dsimp only at hseq
    by_cases hs : (push f r r.length).1 = SUCCESS
    · rw [if_pos hs] at hseq
      rcases push_phase_step recs spans f r hph (hwf r (by simp)) with hne | ⟨spans', hph'⟩
      · exact absurd hs hne
      · obtain ⟨spans1, h⟩ := ih (recs ++ [r]) spans' _ f1 hph'
          (fun q hq => hwf q (by simp [hq])) hseq
        refine ⟨spans1, ?_⟩
        rw [show recs ++ r :: rs = (recs ++ [r]) ++ rs by simp]
        exact h
    · rw [if_neg hs] at hseq
      cases hseq

theorem popSeq_phase :
    ∀ (todo : List (List Nat)) (szs : List Nat) (P U : Nat) (f : FIFOEE),
      PopPhase todo P U f →
      List.Forall₂ (fun (r : List Nat) (sz : Nat) => r.length ≤ sz) todo szs →
      (popSeq f szs).1 = todo.map (fun r => (SUCCESS, r, r.length)) := by
  intro todo szs P U f hph hfa
  induction hfa generalizing P f with
  | nil => rfl
  | cons hle hfa2 ih =>
    rename_i r sz todo2 szs2
    unfold popSeq
    dsimp only
    obtain ⟨h1, h2, h3, hph'⟩ := pop_phase_step todo2 r P U f hph sz hle
    rw [h1, h2, h3, List.map_cons]
    rw [ih _ _ hph']

/-- Claim C1: starting from a freshly formatted region, for every sequence
of pushes of records of size 1..127 that all return `Success`, a following
equally long sequence of pops, each given a buffer at least as large as
its record, returns `Success` each time and delivers exactly the pushed
records, in order, bytewise, with `*size` set to each record's length. -/
theorem claim1_roundtrip (g : FIFOEE) (rs : List (List Nat)) (szs : List Nat) (f1 : FIFOEE)
    (hR : 4 ≤ g.rBufSize) (hl : g.ring.length = g.rBufSize)
    (hwf : ∀ r ∈ rs, 1 ≤ r.length ∧ r.length ≤ 127 ∧ ∀ b ∈ r, b < 256)
    (hpush : pushSeq (format g).2 rs = some f1)
    (hsz : List.Forall₂ (fun (r : List Nat) (sz : Nat) => r.length ≤ sz) rs szs) :
    (popSeq f1 szs).1 = rs.map (fun r => (SUCCESS, r, r.length)) := by
  obtain ⟨spans0, hph0⟩ := format_phase g hR hl
  obtain ⟨spans1, hph1⟩ := pushSeq_phase rs [] spans0 _ f1 hph0
    (fun r hr => ⟨(hwf r hr).2.1, (hwf r hr).2.2⟩) hpush
  rw [List.nil_append] at hph1
  have hpos := FreeTile_sum_pos hph1.spans_ok hph1.spans_ne
  have hpp : PopPhase rs 0 (usedLen rs) f1 :=
    { rlen := hph1.rlen
      hpop := hph1.hpop
      hread := hph1.hread
      hpush := hph1.hpush
      hlt := by have := hph1.hsum; omega
      todo_ok := hph1.recs_ok
      todo_wf := hph1.recs_wf
      hsum := by omega }
  exact popSeq_phase rs szs 0 (usedLen rs) f1 hpp hsz

/-- Witness for C1 at a concrete input: two one-byte records pushed onto a
freshly formatted ring of size 9, then popped with 16-byte buffers. -/
theorem claim1_roundtrip_witness :
    pushSeq (format ⟨9, 0, List.replicate 9 0, 0, 0, 0⟩).2 [[1], [2]] =
      some ⟨9, 0, [1, 1, 1, 2, 132, 0, 0, 0, 0], 4, 0, 0⟩ ∧
    (popSeq (⟨9, 0, [1, 1, 1, 2, 132, 0, 0, 0, 0], 4, 0, 0⟩ : FIFOEE) [16, 16]).1 =
      [[1], [2]].map (fun r => (SUCCESS, r, r.length)) := by
  have hp : pushSeq (format ⟨9, 0, List.replicate 9 0, 0, 0, 0⟩).2 [[1], [2]] =
      some ⟨9, 0, [1, 1, 1, 2, 132, 0, 0, 0, 0], 4, 0, 0⟩ := by
    simp [pushSeq, push, pushLoop, pushCopy, wrapOff, copyToRing, format, formatFill,
      SUCCESS, and127_eq, and128_eq]
  refine ⟨hp, claim1_roundtrip ⟨9, 0, List.replicate 9 0, 0, 0, 0⟩ [[1], [2]] [16, 16] _
    (by norm_num) (by simp) (by decide) hp ?_⟩
  exact .cons (by norm_num) (.cons (by norm_num) .nil)


theorem render_append (a b : List Blk) : render (a ++ b) = render a ++ render b := by
  simp [render]

theorem render_length (bs : List Blk) : (render bs).length = spanSum bs := by
  induction bs with
  | nil => rfl
  | cons b t ih =>
    simp [render, blkBytes, spanSum, blkSpan] at ih ⊢
    omega

theorem spanSum_append (a b : List Blk) : spanSum (a ++ b) = spanSum a + spanSum b := by
  simp [spanSum]

theorem lastSpan_le_spanSum (bs : List Blk) (h : bs ≠ []) : lastSpan bs ≤ spanSum bs := by
  induction bs with
  | nil => exact absurd rfl h
  | cons b t ih =>
    rcases t with _ | ⟨c, t2⟩
    · simp [lastSpan, spanSum]
    · have := ih (by simp)
      rw [lastSpan, List.getLastD_cons]
      rw [lastSpan] at this
      have hx : (c :: t2).getLastD b = (c :: t2).getLastD (true, []) := by
        cases h2 : (c :: t2).getLast? with
        | none => simp [List.getLast?_eq_none_iff] at h2
        | some x => simp [List.getLastD_eq_getLast?, h2]
      rw [hx]
      simp only [spanSum, List.map_cons, List.sum_cons] at this ⊢
      omega

theorem starts_bound (bs : List Blk) (h : bs ≠ []) :
    ∀ p q, q ∈ startsFrom p bs → q + lastSpan bs ≤ p + spanSum bs := by
  induction bs with
  | nil => exact absurd rfl h
  | cons b t ih =>
    intro p q hq
    simp only [startsFrom, List.mem_cons] at hq
    rcases hq with rfl | hq
    · rcases t with _ | ⟨c, t2⟩
      · simp [lastSpan, spanSum, blkSpan]
      · have h1 := lastSpan_le_spanSum (c :: t2) (by simp)
        have hx : lastSpan (b :: c :: t2) = lastSpan (c :: t2) := by
          simp [lastSpan, List.getLastD_cons]
        rw [hx]
        simp only [spanSum, List.map_cons, List.sum_cons] at h1 ⊢
        omega
    · rcases t with _ | ⟨c, t2⟩
      · simp [startsFrom] at hq
      · have := ih (by simp) (p + blkSpan b) q hq
        have hx : lastSpan (b :: c :: t2) = lastSpan (c :: t2) := by
          simp [lastSpan, List.getLastD_cons]
        rw [hx]
        simp only [spanSum, List.map_cons, List.sum_cons] at this ⊢
        omega

theorem lastSpan_append (pre post : List Blk) (h : post ≠ []) :
    lastSpan (pre ++ post) = lastSpan post := by
  unfold lastSpan
  rw [List.getLastD_eq_getLast?, List.getLastD_eq_getLast?, List.getLast?_append]
  cases h2 : post.getLast? with
  | none =>
    rw [List.getLast?_eq_none_iff] at h2
    exact absurd h2 h
  | some x => simp [h2]

theorem ringOf_length (bs : List Blk) (bot : Nat) :
    (ringOf bs bot).length = (render bs).length := by
  unfold ringOf
  rw [List.length_append, List.length_drop, List.length_take]
  omega

theorem ringOf_getD_hi (bs : List Blk) (bot : Nat) (hbot : bot ≤ (render bs).length)
    (i : Nat) (hi : i < (render bs).length - bot) :
    (ringOf bs bot).getD (bot + i) 0 = (render bs).getD i 0 := by
  unfold ringOf
  rw [List.getD_append_right _ _ _ _ (by simp; omega)]
  have hlen : ((render bs).drop ((render bs).length - bot)).length = bot := by
    simp
    omega
  rw [hlen, show bot + i - bot = i by omega]
  rw [List.getD_eq_getElem _ _ (by simp; omega), List.getElem_take,
    List.getD_eq_getElem _ _ (by omega)]

theorem ringOf_getD_lo (bs : List Blk) (bot : Nat) (hbot : bot ≤ (render bs).length)
    (j : Nat) (hj : j < bot) :
    (ringOf bs bot).getD j 0 = (render bs).getD ((render bs).length - bot + j) 0 := by
  unfold ringOf
  rw [List.getD_append _ _ _ _ (by simp; omega)]
  rw [List.getD_eq_getElem _ _ (by simp; omega), List.getElem_drop,
    List.getD_eq_getElem _ _ (by omega)]

theorem render_getD_header (pre : List Blk) (b : Blk) (post : List Blk) :
    (render (pre ++ b :: post)).getD (spanSum pre) 0 = blkHeader b := by
  rw [render_append, List.getD_append_right _ _ _ _ (by rw [render_length])]
  rw [render_length, Nat.sub_self]
  rfl

theorem chainOK_hrun_aux (f : FIFOEE) (bs : List Blk) (hc : ChainOK f bs) :
    ∀ (post pre : List Blk), bs = pre ++ post →
      HRun f.ring (f.botOffset + spanSum pre) post := by
  intro post
  induction post with
  | nil => intro pre _; trivial
  | cons b t ih =>
    intro pre heq
    have hlasteq : lastSpan bs = lastSpan (b :: t) := by
      rw [heq, lastSpan_append _ _ (by simp)]
    have hlastle : lastSpan bs ≤ spanSum (b :: t) := by
      rw [hlasteq]
      exact lastSpan_le_spanSum _ (by simp)
    have hsum : spanSum bs = spanSum pre + spanSum (b :: t) := by
      rw [heq, spanSum_append]
    have hblt := hc.bot_lt
    have hposlt : f.botOffset + spanSum pre < (render bs).length := by
      rw [render_length]
      omega
    have hb : f.botOffset ≤ (render bs).length := by
      rw [render_length]
      have h2 := lastSpan_le_spanSum bs hc.nonempty
      omega
    constructor
    · rw [hc.rring]
      rw [ringOf_getD_hi bs f.botOffset hb (spanSum pre) (by rw [render_length]; omega)]
      rw [heq, render_getD_header]
    · have hnext : f.botOffset + spanSum pre + blkSpan b =
          f.botOffset + spanSum (pre ++ [b]) := by
        rw [spanSum_append]
        simp only [spanSum, List.map_cons, List.map_nil, List.sum_cons, List.sum_nil]
        omega
      rw [hnext]
      exact ih (pre ++ [b]) (by rw [heq]; simp)

theorem chainOK_hrun (f : FIFOEE) (bs : List Blk) (hc : ChainOK f bs) :
    HRun f.ring f.botOffset bs := by
  have := chainOK_hrun_aux f bs hc bs [] rfl
  simpa [spanSum] using this

theorem claim5_counterexample :
    ChainOK ⟨9, 0, [131, 0, 0, 0, 3, 7, 8, 9, 128], 8, 4, 4⟩
      [(true, [0, 0, 0]), (false, [7, 8, 9]), (true, [])] ∧
    CursorsOK ⟨9, 0, [131, 0, 0, 0, 3, 7, 8, 9, 128], 8, 4, 4⟩
      [(true, [0, 0, 0]), (false, [7, 8, 9]), (true, [])] ∧
    (push ⟨9, 0, [131, 0, 0, 0, 3, 7, 8, 9, 128], 8, 4, 4⟩ [10, 11, 12] 3).1 = SUCCESS ∧
    ChainOK (push ⟨9, 0, [131, 0, 0, 0, 3, 7, 8, 9, 128], 8, 4, 4⟩ [10, 11, 12] 3).2
      [(true, []), (false, [7, 8, 9]), (false, [10, 11, 12])] ∧
    startsFrom
      (push ⟨9, 0, [131, 0, 0, 0, 3, 7, 8, 9, 128], 8, 4, 4⟩ [10, 11, 12] 3).2.botOffset
      [(true, []), (false, [7, 8, 9]), (false, [10, 11, 12])] = [3, 4, 8] ∧
    8 + blkSpan ((false : Bool), [10, 11, 12]) > 9 ∧
    (push ⟨9, 0, [131, 0, 0, 0, 3, 7, 8, 9, 128], 8, 4, 4⟩ [10, 11, 12] 3).2.botOffset = 3 ∧
    (3 : Nat) ≠ 8 := by
  have hpush : push ⟨9, 0, [131, 0, 0, 0, 3, 7, 8, 9, 128], 8, 4, 4⟩ [10, 11, 12] 3 =
      (SUCCESS, ⟨9, 3, [10, 11, 12, 128, 3, 7, 8, 9, 3], 3, 4, 4⟩) := by
    simp [push, pushLoop, pushCopy, wrapOff, copyToRing, SUCCESS, and127_eq, and128_eq]
  rw [hpush]
  refine ⟨?_, ?_, rfl, ?_, by decide, by decide, rfl, by decide⟩
  · exact
      { nonempty := by simp
        wf := by decide
        rsize := by decide
        rring := by decide
        bot_lt := by decide
        free_ex := by decide }
  · left
    refine ⟨[(true, [0, 0, 0])], [((false : Bool), [7, 8, 9])], [((true : Bool), [])],
      rfl, by decide, by decide, by decide, Or.inr ⟨by simp, by decide, by decide, ?_⟩⟩
    left
    decide
  · exact
      { nonempty := by simp
        wf := by decide
        rsize := by decide
        rring := by decide
        bot_lt := by decide
        free_ex := by decide }

theorem blkHeader_and127 (b : Blk) (h : blkWF b) : blkHeader b &&& 127 = b.2.length := by
  rcases b with ⟨s, d⟩
  have hl : d.length ≤ 127 := h.1
  rw [and127_eq]
  cases s <;> simp [blkHeader] <;> omega

theorem blkHeader_and128 (b : Blk) (h : blkWF b) :
    blkHeader b &&& 128 = if b.1 then 128 else 0 := by
  rcases b with ⟨s, d⟩
  have hl : d.length ≤ 127 := h.1
  rw [and128_eq]
  cases s <;> simp [blkHeader] <;> omega

theorem blkHeader_ne_zero (b : Blk) (h : blkWF b) : blkHeader b ≠ 0 := by
  rcases b with ⟨s, d⟩
  cases s with
  | false =>
    have h1 : 1 ≤ d.length := h.2.2 rfl
    simp only [blkHeader, if_false]
    omega
  | true => simp only [blkHeader, if_true]; omega

theorem spanSum_cons (b : Blk) (bs : List Blk) :
    spanSum (b :: bs) = blkSpan b + spanSum bs := by
  simp [spanSum]

/-- The scan loop of `begin`, run on a well-formed block chain whose spans
tile the rest of the ring exactly, terminates with `SUCCESS` and computes
exactly the cursor fold `curFold`. -/
theorem beginLoop_chain (ring : List Nat) (R bot : Nat) :
    ∀ (bs : List Blk) (b : Blk) (p det oldSt pu po pr : Nat),
      blkWF b →
      (∀ x ∈ bs, blkWF x) →
      p < R →
      (∀ q ∈ startsFrom (p + blkSpan b) bs, q < R) →
      HRun ring (p + blkSpan b) bs →
      p + blkSpan b + spanSum bs = bot + R →
      det + spanSum bs = R →
      beginLoop ring R bot p (blkHeader b) oldSt det pu po pr =
        (SUCCESS, curFold oldSt (p + blkSpan b) (pu, po, pr) bs) := by
  intro bs
  induction bs with
  | nil =>
    intro b p det oldSt pu po pr hwb _ hp _ _ hsum hdet
    simp only [spanSum, List.map_nil, List.sum_nil, Nat.add_zero] at hsum hdet
    have h127 : blkHeader b &&& 127 = b.2.length := blkHeader_and127 b hwb
    have hspan : blkSpan b = b.2.length + 1 := rfl
    unfold beginLoop
    dsimp only
    rw [h127]
    rw [if_pos (by omega), if_neg (by omega), if_neg (by omega)]
    rfl
  | cons b2 bs ih =>
    intro b p det oldSt pu po pr hwb hwfs hp hpos hrun hsum hdet
    have hw2 : blkWF b2 := hwfs b2 (by simp)
    have h127 : blkHeader b &&& 127 = b.2.length := blkHeader_and127 b hwb
    have hspan : blkSpan b = b.2.length + 1 := rfl
    have hspan2 : blkSpan b2 = b2.2.length + 1 := rfl
    rw [spanSum_cons] at hsum hdet
    have hpB : p + blkSpan b < R := hpos (p + blkSpan b) (by rw [startsFrom]; simp)
    unfold beginLoop
    dsimp only
    rw [h127]
    rw [if_neg (by omega)]
    have he : p + b.2.length + 1 = p + blkSpan b := by omega
    rw [he]
    have hh : ring.getD (p + blkSpan b) 0 = blkHeader b2 := hrun.1
    rw [hh]
    rw [if_neg (blkHeader_ne_zero b2 hw2)]
    have h128a : blkHeader b2 &&& 128 = if b2.1 then 128 else 0 := blkHeader_and128 b2 hw2
    have h127a : blkHeader b2 &&& 127 = b2.2.length := blkHeader_and127 b2 hw2
    rw [h128a, h127a]
    have hih := fun oldSt2 pu2 po2 pr2 =>
      ih b2 (p + blkSpan b) (det + b2.2.length + 1) oldSt2 pu2 po2 pr2 hw2
        (fun x hx => hwfs x (by simp [hx]))
        hpB
        (fun q hq => hpos q (by rw [startsFrom]; simp [hq]))
        hrun.2
        (by omega) (by omega)
    simp only [curFold]
    by_cases hst : oldSt = (if b2.1 then 128 else 0)
    · rw [if_pos hst, if_pos hst]
      rw [hst]
      exact hih (if b2.1 then 128 else 0) pu po pr
    · rw [if_neg hst, if_neg hst]
      by_cases h128 : oldSt = 128
      · rw [if_pos h128, if_pos h128]
        exact hih (if b2.1 then 128 else 0) pu (p + blkSpan b) (p + blkSpan b)
      · rw [if_neg h128, if_neg h128]
        exact hih (if b2.1 then 128 else 0) (p + blkSpan b) po pr

/-- `begin` on a state carrying a valid block chain: it writes nothing,
returns `SUCCESS`, and sets the three cursors to the result of the scan
fold `scanCursors`. -/
theorem begin_chain (f : FIFOEE) (bs : List Blk) (hC : ChainOK f bs) :
    begin f = (SUCCESS,
      { f with pPush := (scanCursors f.botOffset bs).1,
               pPop := (scanCursors f.botOffset bs).2.1,
               pRead := (scanCursors f.botOffset bs).2.2 }) := by
  obtain ⟨b, bs', rfl⟩ : ∃ b bs', bs = b :: bs' := by
    cases bs with
    | nil => exact absurd rfl hC.nonempty
    | cons b bs' => exact ⟨b, bs', rfl⟩
  have hrun : HRun f.ring f.botOffset (b :: bs') := chainOK_hrun f _ hC
  have hwb : blkWF b := hC.wf b (by simp)
  have hR : f.rBufSize = spanSum (b :: bs') := hC.rsize
  have hbotlt : f.botOffset < lastSpan (b :: bs') := hC.bot_lt
  have hlastle : lastSpan (b :: bs') ≤ spanSum (b :: bs') :=
    lastSpan_le_spanSum _ (by simp)
  have hcons : spanSum (b :: bs') = blkSpan b + spanSum bs' := spanSum_cons b bs'
  have hbotR : f.botOffset < f.rBufSize := by omega
  have hpos : ∀ q ∈ startsFrom (f.botOffset + blkSpan b) bs', q < f.rBufSize := by
    intro q hq
    cases bs' with
    | nil => simp [startsFrom] at hq
    | cons c t =>
      have hb := starts_bound (c :: t) (by simp) (f.botOffset + blkSpan b) q hq
      have hl : lastSpan ([b] ++ c :: t) = lastSpan (c :: t) :=
        lastSpan_append [b] (c :: t) (by simp)
      simp only [List.singleton_append] at hl
      rw [← hl] at hb
      omega
  unfold begin
  dsimp only
  have hh0 : f.ring.getD f.botOffset 0 = blkHeader b := hrun.1
  rw [hh0]
  rw [if_neg (blkHeader_ne_zero b hwb)]
  rw [blkHeader_and128 b hwb, blkHeader_and127 b hwb]
  have hbl := beginLoop_chain f.ring f.rBufSize f.botOffset bs' b f.botOffset
      (b.2.length + 1) (if b.1 then 128 else 0) f.botOffset f.botOffset f.botOffset
      hwb (fun x hx => hC.wf x (by simp [hx])) hbotR hpos hrun.2
      (by omega) (by have hsp : blkSpan b = b.2.length + 1 := rfl; omega)
  rw [hbl]
  rfl

theorem curFold_free (run : List Blk) :
    ∀ (rest : List Blk) (p : Nat) (cur : Nat × Nat × Nat), allFree run →
      curFold 128 p cur (run ++ rest) = curFold 128 (p + spanSum run) cur rest := by
  induction run with
  | nil =>
    intro rest p cur _
    simp [spanSum]
  | cons b run ih =>
    intro rest p cur hf
    have hb : b.1 = true := hf b (by simp)
    rw [List.cons_append, curFold, hb]
    simp only [if_pos rfl, if_true]
    rw [ih rest (p + blkSpan b) cur (fun x hx => hf x (by simp [hx]))]
    rw [spanSum_cons, ← Nat.add_assoc]

theorem curFold_used (run : List Blk) :
    ∀ (rest : List Blk) (p : Nat) (cur : Nat × Nat × Nat), allUsed run →
      curFold 0 p cur (run ++ rest) = curFold 0 (p + spanSum run) cur rest := by
  induction run with
  | nil =>
    intro rest p cur _
    simp [spanSum]
  | cons b run ih =>
    intro rest p cur hu
    have hb : b.1 = false := hu b (by simp)
    rw [List.cons_append, curFold, hb]
    simp only [if_false, Bool.false_eq_true, if_pos rfl]
    rw [if_pos trivial]
    rw [ih rest (p + blkSpan b) cur (fun x hx => hu x (by simp [hx]))]
    rw [spanSum_cons, ← Nat.add_assoc]

theorem scan_allFree (bs : List Blk) (bot : Nat) (hf : allFree bs) :
    scanCursors bot bs = (bot, bot, bot) := by
  cases bs with
  | nil => rfl
  | cons b bs' =>
    have hb : b.1 = true := hf b (by simp)
    rw [scanCursors, hb]
    simp only [if_true]
    rw [show bs' = bs' ++ [] by simp,
      curFold_free bs' [] _ _ (fun x hx => hf x (by simp [hx]))]
    rfl

theorem curFold_free_nil (run : List Blk) (p : Nat) (cur : Nat × Nat × Nat)
    (hf : allFree run) : curFold 128 p cur run = cur := by
  rw [show run = run ++ [] by simp, curFold_free run [] p cur hf]
  rfl

theorem curFold_used_nil (run : List Blk) (p : Nat) (cur : Nat × Nat × Nat)
    (hu : allUsed run) : curFold 0 p cur run = cur := by
  rw [show run = run ++ [] by simp, curFold_used run [] p cur hu]
  rfl

theorem curFold_step_ff (b : Blk) (hb : b.1 = true) (rest : List Blk) (p : Nat)
    (cur : Nat × Nat × Nat) :
    curFold 128 p cur (b :: rest) = curFold 128 (p + blkSpan b) cur rest := by
  rw [curFold, hb]
  simp

theorem curFold_step_uu (b : Blk) (hb : b.1 = false) (rest : List Blk) (p : Nat)
    (cur : Nat × Nat × Nat) :
    curFold 0 p cur (b :: rest) = curFold 0 (p + blkSpan b) cur rest := by
  rw [curFold, hb]
  simp

theorem curFold_step_fu (b : Blk) (hb : b.1 = false) (rest : List Blk) (p : Nat)
    (cur : Nat × Nat × Nat) :
    curFold 128 p cur (b :: rest) = curFold 0 (p + blkSpan b) (cur.1, p, p) rest := by
  rw [curFold, hb]
  simp

theorem curFold_step_uf (b : Blk) (hb : b.1 = true) (rest : List Blk) (p : Nat)
    (cur : Nat × Nat × Nat) :
    curFold 0 p cur (b :: rest) =
      curFold 128 (p + blkSpan b) (p, cur.2.1, cur.2.2) rest := by
  rw [curFold, hb]
  simp

/-- The scan fold on a chain laid out as free-run, used-run, free-run
(the pop-phase layout): `pPop` and `pRead` land at the start of the used
run, `pPush` at its end (or at the anchor when the trailing free run is
empty, i.e. the used run ends exactly at the ring end). -/
theorem scan_FUF (F1 U F2 : List Blk) (bot : Nat)
    (hf1 : allFree F1) (hu : allUsed U) (hf2 : allFree F2) (hUne : U ≠ []) :
    scanCursors bot (F1 ++ U ++ F2) =
      ((if F2 = [] then bot else bot + spanSum F1 + spanSum U),
        bot + spanSum F1, bot + spanSum F1) := by
  obtain ⟨u, U', rfl⟩ : ∃ u U', U = u :: U' := by
    cases U with
    | nil => exact absurd rfl hUne
    | cons u U' => exact ⟨u, U', rfl⟩
  have hu1 : u.1 = false := hu u (by simp)
  have huU : allUsed U' := fun x hx => hu x (by simp [hx])
  cases F1 with
  | nil =>
    simp only [List.nil_append, List.cons_append, List.append_assoc]
    rw [scanCursors, hu1]
    simp only [Bool.false_eq_true, if_false]
    rw [curFold_used U' F2 _ _ huU]
    cases F2 with
    | nil =>
      rw [curFold]
      simp [spanSum]
    | cons fb2 F2p =>
      have hfb2 : fb2.1 = true := hf2 fb2 (by simp)
      rw [curFold_step_uf fb2 hfb2]
      rw [curFold_free_nil F2p _ _ (fun x hx => hf2 x (by simp [hx]))]
      rw [if_neg (by simp)]
      simp only [Prod.mk.injEq, spanSum, List.map_nil, List.sum_nil, List.map_cons,
        List.sum_cons]
      omega
  | cons fb F1p =>
    have hfb : fb.1 = true := hf1 fb (by simp)
    have hfF : allFree F1p := fun x hx => hf1 x (by simp [hx])
    simp only [List.cons_append, List.append_assoc]
    rw [scanCursors, hfb]
    simp only [if_true]
    rw [curFold_free F1p (u :: (U' ++ F2)) _ _ hfF]
    rw [curFold_step_fu u hu1]
    rw [curFold_used U' F2 _ _ huU]
    cases F2 with
    | nil =>
      rw [curFold]
      rw [if_pos rfl]
      simp only [Prod.mk.injEq, spanSum_cons]
      exact ⟨trivial, by omega, by omega⟩
    | cons fb2 F2p =>
      have hfb2 : fb2.1 = true := hf2 fb2 (by simp)
      rw [curFold_step_uf fb2 hfb2]
      rw [curFold_free_nil F2p _ _ (fun x hx => hf2 x (by simp [hx]))]
      rw [if_neg (by simp)]
      simp only [Prod.mk.injEq, spanSum_cons]
      omega

/-- The scan fold on a chain laid out as used-run, free-run, used-run
(the wrapped-queue layout): `pPush` lands at the start of the free run,
`pPop` and `pRead` at its end. -/
theorem scan_UFU (U2 F U1 : List Blk) (bot : Nat)
    (hu2 : allUsed U2) (hf : allFree F) (hu1 : allUsed U1)
    (hne2 : U2 ≠ []) (hnef : F ≠ []) (hne1 : U1 ≠ []) :
    scanCursors bot (U2 ++ F ++ U1) =
      (bot + spanSum U2, bot + spanSum U2 + spanSum F,
        bot + spanSum U2 + spanSum F) := by
  obtain ⟨u, U2p, rfl⟩ : ∃ u U2p, U2 = u :: U2p := by
    cases U2 with
    | nil => exact absurd rfl hne2
    | cons u U2p => exact ⟨u, U2p, rfl⟩
  obtain ⟨fb, Fp, rfl⟩ : ∃ fb Fp, F = fb :: Fp := by
    cases F with
    | nil => exact absurd rfl hnef
    | cons fb Fp => exact ⟨fb, Fp, rfl⟩
  obtain ⟨u1, U1p, rfl⟩ : ∃ u1 U1p, U1 = u1 :: U1p := by
    cases U1 with
    | nil => exact absurd rfl hne1
    | cons u1 U1p => exact ⟨u1, U1p, rfl⟩
  have hub : u.1 = false := hu2 u (by simp)
  have hfb : fb.1 = true := hf fb (by simp)
  have hu1b : u1.1 = false := hu1 u1 (by simp)
  simp only [List.cons_append, List.append_assoc]
  rw [scanCursors, hub]
  simp only [Bool.false_eq_true, if_false]
  rw [curFold_used U2p (fb :: (Fp ++ u1 :: U1p)) _ _ (fun x hx => hu2 x (by simp [hx]))]
  rw [curFold_step_uf fb hfb]
  rw [curFold_free Fp (u1 :: U1p) _ _ (fun x hx => hf x (by simp [hx]))]
  rw [curFold_step_fu u1 hu1b]
  rw [curFold_used_nil U1p _ _ (fun x hx => hu1 x (by simp [hx]))]
  simp only [Prod.mk.injEq, spanSum_cons]
  omega

/-- On a state whose cursors are consistent with its block chain, the scan
of `begin` recomputes exactly the held `pPush` and `pPop`, and leaves
`pRead` at the recomputed `pPop`. -/
theorem scanCursors_matches (f : FIFOEE) (bs : List Blk) (hK : CursorsOK f bs)
    (hne : ∃ b ∈ bs, b.1 = false) :
    scanCursors f.botOffset bs = (f.pPush, f.pPop, f.pPop) := by
  rcases hK with ⟨F1, U, F2, hbs, hf1, hu, hf2, hcase⟩ |
    ⟨U2, Fr, U1, hbs, hu2, hfr, hu1, hne2, hne1v, hnef, hpop, hpush, _⟩
  · rcases hcase with ⟨hU, _, _, _⟩ | ⟨hUne, hpo, hpu, _⟩
    · exfalso
      obtain ⟨b, hb, hbu⟩ := hne
      subst hU
      rw [hbs] at hb
      simp only [List.append_nil, List.mem_append] at hb
      rcases hb with h | h
      · rw [hf1 b h] at hbu
        exact absurd hbu (by simp)
      · rw [hf2 b h] at hbu
        exact absurd hbu (by simp)
    · rw [hbs, scan_FUF F1 U F2 _ hf1 hu hf2 hUne, hpu, hpo]
  · rw [hbs, scan_UFU U2 Fr U1 _ hu2 hfr hu1 hne2 hnef hne1v, hpush, hpop]

/-- Claim C2 (amended: `begin` on a valid quiescent region writes nothing
and returns `Success`, but it does NOT in general return the cursor triple
held before the call.  When the FIFO queue is nonempty (some block is
used), `push_p` and `pop_p` are recomputed to their held values while
`read_p` is reset to `pop_p`, so a held `read_p` strictly inside the queue
is lost.  When the queue is empty (every block free) the scan sees no
status transition and relocates all three cursors to the anchor block
`botOffset`, so even held `push_p` and `pop_p` sitting on another block
boundary are lost — see the counterexample for both effects.  A second
immediate `begin` returns `Success` and leaves the state of the first
`begin` entirely unchanged, in particular the same cursor triple). -/
theorem claim2_begin_idempotent (f : FIFOEE) (bs : List Blk)
    (hC : ChainOK f bs) (hK : CursorsOK f bs) :
    ((∃ b ∈ bs, b.1 = false) →
      begin f = (SUCCESS, { f with pRead := f.pPop })) ∧
    (allFree bs →
      begin f = (SUCCESS, { f with pPush := f.botOffset, pPop := f.botOffset,
                                   pRead := f.botOffset })) ∧
    begin (begin f).2 = (SUCCESS, (begin f).2) := by
  have hused : ∀ _ : ∃ b ∈ bs, b.1 = false,
      begin f = (SUCCESS, { f with pRead := f.pPop }) := by
    intro hne
    have h1 := begin_chain f bs hC
    rw [scanCursors_matches f bs hK hne] at h1
    exact h1
  have hfree : ∀ _ : allFree bs,
      begin f = (SUCCESS, { f with pPush := f.botOffset, pPop := f.botOffset,
                                   pRead := f.botOffset }) := by
    intro hall
    have h1 := begin_chain f bs hC
    rw [scan_allFree bs f.botOffset hall] at h1
    exact h1
  refine ⟨hused, hfree, ?_⟩
  by_cases hall : allFree bs
  · have h1 := hfree hall
    have hg : ChainOK
        ({ f with
          pPush := f.botOffset,
          pPop := f.botOffset,
          pRead := f.botOffset }) bs :=
      { nonempty := hC.nonempty
        wf := hC.wf
        rsize := hC.rsize
        rring := hC.rring
        bot_lt := hC.bot_lt
        free_ex := hC.free_ex }
    have h2 := begin_chain
      ({ f with
        pPush := f.botOffset,
        pPop := f.botOffset,
        pRead := f.botOffset }) bs hg
    have hsc : scanCursors
        (({ f with
          pPush := f.botOffset,
          pPop := f.botOffset,
          pRead := f.botOffset }) : FIFOEE).botOffset bs =
        (f.botOffset, f.botOffset, f.botOffset) :=
      scan_allFree bs f.botOffset hall
    rw [hsc] at h2
    rw [h1]
    exact h2
  · have hne : ∃ b ∈ bs, b.1 = false := by
      by_contra hc
      apply hall
      intro b hb
      cases hb1 : b.1 with
      | true => rfl
      | false => exact absurd ⟨b, hb, hb1⟩ hc
    have h1 := hused hne
    have hg : ChainOK { f with pRead := f.pPop } bs :=
      { nonempty := hC.nonempty
        wf := hC.wf
        rsize := hC.rsize
        rring := hC.rring
        bot_lt := hC.bot_lt
        free_ex := hC.free_ex }
    have h2 := begin_chain { f with pRead := f.pPop } bs hg
    have hsc : scanCursors ({ f with pRead := f.pPop } : FIFOEE).botOffset bs =
        (f.pPush, f.pPop, f.pPop) := scanCursors_matches f bs hK hne
    rw [hsc] at h2
    rw [h1]
    exact h2

theorem claim2_counterexample :
    ChainOK ⟨9, 0, [2, 170, 187, 1, 204, 131, 0, 0, 0], 5, 0, 3⟩
      [(false, [170, 187]), (false, [204]), (true, [0, 0, 0])] ∧
    CursorsOK ⟨9, 0, [2, 170, 187, 1, 204, 131, 0, 0, 0], 5, 0, 3⟩
      [(false, [170, 187]), (false, [204]), (true, [0, 0, 0])] ∧
    (begin ⟨9, 0, [2, 170, 187, 1, 204, 131, 0, 0, 0], 5, 0, 3⟩).1 = SUCCESS ∧
    (⟨9, 0, [2, 170, 187, 1, 204, 131, 0, 0, 0], 5, 0, 3⟩ : FIFOEE).pRead = 3 ∧
    (begin ⟨9, 0, [2, 170, 187, 1, 204, 131, 0, 0, 0], 5, 0, 3⟩).2.pRead = 0 ∧
    (0 : Nat) ≠ 3 ∧
    ChainOK ⟨9, 0, [129, 1, 134, 0, 0, 0, 0, 0, 0], 2, 2, 2⟩
      [(true, [1]), (true, [0, 0, 0, 0, 0, 0])] ∧
    CursorsOK ⟨9, 0, [129, 1, 134, 0, 0, 0, 0, 0, 0], 2, 2, 2⟩
      [(true, [1]), (true, [0, 0, 0, 0, 0, 0])] ∧
    (begin ⟨9, 0, [129, 1, 134, 0, 0, 0, 0, 0, 0], 2, 2, 2⟩).1 = SUCCESS ∧
    (⟨9, 0, [129, 1, 134, 0, 0, 0, 0, 0, 0], 2, 2, 2⟩ : FIFOEE).pPush = 2 ∧
    (⟨9, 0, [129, 1, 134, 0, 0, 0, 0, 0, 0], 2, 2, 2⟩ : FIFOEE).pPop = 2 ∧
    (begin ⟨9, 0, [129, 1, 134, 0, 0, 0, 0, 0, 0], 2, 2, 2⟩).2.pPush = 0 ∧
    (begin ⟨9, 0, [129, 1, 134, 0, 0, 0, 0, 0, 0], 2, 2, 2⟩).2.pPop = 0 ∧
    (0 : Nat) ≠ 2 := by
  have hb : begin ⟨9, 0, [2, 170, 187, 1, 204, 131, 0, 0, 0], 5, 0, 3⟩ =
      (SUCCESS, ⟨9, 0, [2, 170, 187, 1, 204, 131, 0, 0, 0], 5, 0, 0⟩) := by
    simp [begin, beginLoop, SUCCESS, and127_eq, and128_eq]
  have hb2 : begin ⟨9, 0, [129, 1, 134, 0, 0, 0, 0, 0, 0], 2, 2, 2⟩ =
      (SUCCESS, ⟨9, 0, [129, 1, 134, 0, 0, 0, 0, 0, 0], 0, 0, 0⟩) := by
    simp [begin, beginLoop, SUCCESS, and127_eq, and128_eq]
  refine ⟨?_, ?_, by rw [hb], rfl, by rw [hb], by decide,
    ?_, ?_, by rw [hb2], rfl, rfl, by rw [hb2], by rw [hb2], by decide⟩
  · exact
      { nonempty := by simp
        wf := by decide
        rsize := by decide
        rring := by decide
        bot_lt := by decide
        free_ex := by decide }
  · left
    refine ⟨[], [((false : Bool), [170, 187]), ((false : Bool), [204])],
      [((true : Bool), [0, 0, 0])], rfl, by decide, by decide, by decide,
      Or.inr ⟨by simp, by decide, by decide, Or.inl (by decide)⟩⟩
  · exact
      { nonempty := by simp
        wf := by decide
        rsize := by decide
        rring := by decide
        bot_lt := by decide
        free_ex := by decide }
  · left
    exact ⟨[((true : Bool), [1]), ((true : Bool), [0, 0, 0, 0, 0, 0])], [], [],
      by simp, by decide, by decide, by decide,
      Or.inl ⟨rfl, rfl, rfl, by decide⟩⟩

theorem claim2_begin_idempotent_witness :
    begin ⟨9, 0, [2, 170, 187, 1, 204, 131, 0, 0, 0], 5, 0, 3⟩ =
      (SUCCESS, ⟨9, 0, [2, 170, 187, 1, 204, 131, 0, 0, 0], 5, 0, 0⟩) ∧
    begin ⟨9, 0, [2, 170, 187, 1, 204, 131, 0, 0, 0], 5, 0, 0⟩ =
      (SUCCESS, ⟨9, 0, [2, 170, 187, 1, 204, 131, 0, 0, 0], 5, 0, 0⟩) ∧
    begin ⟨9, 0, [129, 1, 134, 0, 0, 0, 0, 0, 0], 2, 2, 2⟩ =
      (SUCCESS, ⟨9, 0, [129, 1, 134, 0, 0, 0, 0, 0, 0], 0, 0, 0⟩) := by
  have hC : ChainOK ⟨9, 0, [2, 170, 187, 1, 204, 131, 0, 0, 0], 5, 0, 3⟩
      [(false, [170, 187]), (false, [204]), (true, [0, 0, 0])] :=
    { nonempty := by simp
      wf := by decide
      rsize := by decide
      rring := by decide
      bot_lt := by decide
      free_ex := by decide }
  have hK : CursorsOK ⟨9, 0, [2, 170, 187, 1, 204, 131, 0, 0, 0], 5, 0, 3⟩
      [(false, [170, 187]), (false, [204]), (true, [0, 0, 0])] := by
    left
    exact ⟨[], [((false : Bool), [170, 187]), ((false : Bool), [204])],
      [((true : Bool), [0, 0, 0])], rfl, by decide, by decide, by decide,
      Or.inr ⟨by simp, by decide, by decide, Or.inl (by decide)⟩⟩
  have h := claim2_begin_idempotent
    ⟨9, 0, [2, 170, 187, 1, 204, 131, 0, 0, 0], 5, 0, 3⟩
    [(false, [170, 187]), (false, [204]), (true, [0, 0, 0])] hC hK
  have h1 := h.1 (by decide)
  refine ⟨h1, ?_, ?_⟩
  · have h2 := h.2.2
    rw [h1] at h2
    exact h2
  · have hCe : ChainOK ⟨9, 0, [129, 1, 134, 0, 0, 0, 0, 0, 0], 2, 2, 2⟩
        [(true, [1]), (true, [0, 0, 0, 0, 0, 0])] :=
      { nonempty := by simp
        wf := by decide
        rsize := by decide
        rring := by decide
        bot_lt := by decide
        free_ex := by decide }
    have hKe : CursorsOK ⟨9, 0, [129, 1, 134, 0, 0, 0, 0, 0, 0], 2, 2, 2⟩
        [(true, [1]), (true, [0, 0, 0, 0, 0, 0])] := by
      left
      exact ⟨[((true : Bool), [1]), ((true : Bool), [0, 0, 0, 0, 0, 0])], [], [],
        by simp, by decide, by decide, by decide,
        Or.inl ⟨rfl, rfl, rfl, by decide⟩⟩
    have hE := claim2_begin_idempotent
      ⟨9, 0, [129, 1, 134, 0, 0, 0, 0, 0, 0], 2, 2, 2⟩
      [(true, [1]), (true, [0, 0, 0, 0, 0, 0])] hCe hKe
    exact hE.2.1 (by decide)

theorem startsFrom_mem (pre : List Blk) :
    ∀ (b : Blk) (post : List Blk) (p : Nat),
      p + spanSum pre ∈ startsFrom p (pre ++ b :: post) := by
  induction pre with
  | nil =>
    intro b post p
    simp [startsFrom, spanSum]
  | cons c pre ih =>
    intro b post p
    rw [List.cons_append, startsFrom]
    have h := ih b post (p + blkSpan c)
    have he : p + spanSum (c :: pre) = p + blkSpan c + spanSum pre := by
      rw [spanSum_cons]; omega
    rw [he]
    exact List.mem_cons_of_mem _ h

theorem chain_pos_bound (f : FIFOEE) (bs : List Blk) (hC : ChainOK f bs)
    (pre : List Blk) (b : Blk) (post : List Blk) (hbs : bs = pre ++ b :: post) :
    f.botOffset + spanSum pre < f.rBufSize ∧
    f.botOffset + spanSum pre + blkSpan b ≤ f.botOffset + f.rBufSize := by
  have hmem : f.botOffset + spanSum pre ∈ startsFrom f.botOffset bs := by
    rw [hbs]; exact startsFrom_mem pre b post f.botOffset
  have hb := starts_bound bs hC.nonempty f.botOffset _ hmem
  have hbot := hC.bot_lt
  have hlast : lastSpan bs ≤ spanSum bs := lastSpan_le_spanSum bs hC.nonempty
  have hsum : spanSum bs = spanSum pre + (blkSpan b + spanSum post) := by
    rw [hbs, spanSum_append, spanSum_cons]
  have hR : f.rBufSize = spanSum bs := hC.rsize
  omega

theorem render_getD_payload (pre : List Blk) (b : Blk) (post : List Blk)
    (t : Nat) (ht : t < b.2.length) :
    (render (pre ++ b :: post)).getD (spanSum pre + 1 + t) 0 = b.2.getD t 0 := by
  rw [render_append, List.getD_append_right _ _ _ _ (by rw [render_length]; omega)]
  rw [render_length, show spanSum pre + 1 + t - spanSum pre = t + 1 by omega]
  rw [show render (b :: post) = (blkHeader b :: b.2) ++ render post by
    simp [render, blkBytes]]
  rw [List.getD_append _ _ _ _ (by simp; omega)]
  rfl

theorem ring_unrolled (f : FIFOEE) (bs : List Blk) (hC : ChainOK f bs)
    (i : Nat) (hi : i < f.rBufSize) :
    f.ring.getD (wrapP f.rBufSize (f.botOffset + i)) 0 = (render bs).getD i 0 := by
  have hlen : (render bs).length = f.rBufSize := by rw [render_length, ← hC.rsize]
  have hbotlt : f.botOffset < f.rBufSize := by
    have h1 := hC.bot_lt
    have h2 := lastSpan_le_spanSum bs hC.nonempty
    have h3 : f.rBufSize = spanSum bs := hC.rsize
    omega
  rw [hC.rring]
  unfold wrapP
  split
  next hlt =>
    have h := ringOf_getD_hi bs f.botOffset (by omega) i (by omega)
    exact h
  next hge =>
    have hj : f.botOffset + i - f.rBufSize < f.botOffset := by omega
    have h := ringOf_getD_lo bs f.botOffset (by omega)
      (f.botOffset + i - f.rBufSize) hj
    rw [h, hlen, show f.rBufSize - f.botOffset + (f.botOffset + i - f.rBufSize) = i
      by omega]

/-- `readData` on a used block of a valid chain, run from any state `g`
whose ring agrees with the chain state's ring on the block's span (and has
the same ring size): it succeeds and returns exactly the block's payload,
advancing the block pointer past the block with ring-end wraparound. -/
theorem readData_block (f : FIFOEE) (bs : List Blk) (hC : ChainOK f bs)
    (pre : List Blk) (d : List Nat) (post : List Blk)
    (hbs : bs = pre ++ ((false : Bool), d) :: post)
    (g : FIFOEE) (hgR : g.rBufSize = f.rBufSize)
    (hagree : ∀ t, t ≤ d.length →
      g.ring.getD (wrapP f.rBufSize (f.botOffset + spanSum pre + t)) 0 =
        f.ring.getD (wrapP f.rBufSize (f.botOffset + spanSum pre + t)) 0)
    (sizeIn : Nat) (hsz : d.length ≤ sizeIn) :
    readData g (f.botOffset + spanSum pre) sizeIn =
      ⟨SUCCESS, d, d.length,
        nextOf f.rBufSize (f.botOffset + spanSum pre) d.length, d.length + 1⟩ := by
  have hwf : blkWF ((false : Bool), d) := hC.wf _ (by rw [hbs]; simp)
  have h127 : d.length ≤ 127 := hwf.1
  have hpos := chain_pos_bound f bs hC pre _ post hbs
  have hspanb : blkSpan ((false : Bool), d) = d.length + 1 := rfl
  have hPlt : f.botOffset + spanSum pre < f.rBufSize := hpos.1
  have hPle : f.botOffset + spanSum pre + (d.length + 1) ≤
      f.botOffset + f.rBufSize := by
    have h2 := hpos.2
    omega
  have hbotlt : f.botOffset < f.rBufSize := by
    have h1 := hC.bot_lt
    have h2 := lastSpan_le_spanSum bs hC.nonempty
    have h3 : f.rBufSize = spanSum bs := hC.rsize
    omega
  have hbyte : ∀ t, t ≤ d.length →
      g.ring.getD (wrapP f.rBufSize (f.botOffset + spanSum pre + t)) 0 =
        (render bs).getD (spanSum pre + t) 0 := by
    intro t ht
    rw [hagree t ht]
    rw [show f.botOffset + spanSum pre + t = f.botOffset + (spanSum pre + t) by omega]
    exact ring_unrolled f bs hC (spanSum pre + t) (by omega)
  have hhead : g.ring.getD (f.botOffset + spanSum pre) 0 = d.length := by
    have h0 := hbyte 0 (Nat.zero_le _)
    rw [Nat.add_zero, Nat.add_zero] at h0
    rw [wrapP, if_pos hPlt] at h0
    rw [h0, hbs, render_getD_header]
    simp [blkHeader]
  have hpay : ∀ t, t < d.length →
      g.ring.getD (wrapP f.rBufSize (f.botOffset + spanSum pre + 1 + t)) 0 =
        d.getD t 0 := by
    intro t ht
    have h1 := hbyte (1 + t) (by omega)
    rw [show f.botOffset + spanSum pre + (1 + t) =
      f.botOffset + spanSum pre + 1 + t by omega] at h1
    rw [show spanSum pre + (1 + t) = spanSum pre + 1 + t by omega, hbs] at h1
    rw [h1, render_getD_payload pre _ post t ht]
  unfold readData
  dsimp only
  rw [hhead, hgR]
  rw [show d.length &&& 127 = d.length by rw [and127_eq]; omega]
  rw [if_neg (by omega)]
  rw [show f.botOffset + spanSum pre + (d.length + 1) =
    f.botOffset + spanSum pre + d.length + 1 by omega]
  rw [show d.length + 1 - 1 = d.length by omega]
  by_cases hw : f.botOffset + spanSum pre + d.length + 1 > f.rBufSize
  · rw [if_pos hw]
    have hout : copyFromRing g.ring 0
        (f.botOffset + spanSum pre + d.length + 1 - f.rBufSize)
        (copyFromRing g.ring (f.botOffset + spanSum pre + 1)
          (f.rBufSize - (f.botOffset + spanSum pre + 1)) []) = d := by
      rw [copyFromRing_eq, copyFromRing_eq]
      simp only [List.nil_append]
      apply List.ext_getElem
      · simp
        omega
      · intro i h1 h2
        have h2d : i < d.length := by simpa using h2
        by_cases hi : i < f.rBufSize - (f.botOffset + spanSum pre + 1)
        · rw [List.getElem_append_left (by simpa using hi)]
          simp only [List.getElem_map, List.getElem_range]
          have hp := hpay i h2d
          rw [wrapP, if_pos (by omega)] at hp
          rw [← List.getD_eq_getElem d 0 h2d]
          exact hp
        · rw [List.getElem_append_right (by simpa using hi)]
          simp only [List.getElem_map, List.getElem_range, List.length_map,
            List.length_range]
          have hp := hpay i h2d
          rw [wrapP, if_neg (by omega)] at hp
          rw [show 0 + (i - (f.rBufSize - (f.botOffset + spanSum pre + 1))) =
            f.botOffset + spanSum pre + 1 + i - f.rBufSize by omega]
          rw [← List.getD_eq_getElem d 0 h2d]
          exact hp
    rw [hout]
    simp only [ReadDataResult.mk.injEq]
    refine ⟨trivial, trivial, trivial, ?_, trivial⟩
    have hc1 : f.botOffset + spanSum pre + d.length + 1 - f.rBufSize <
        f.rBufSize := by omega
    have hc2 : ¬ (f.botOffset + spanSum pre + d.length + 1 < f.rBufSize) := by
      omega
    rw [nextOf, if_pos hc1, if_neg hc2]
  · rw [if_neg hw]
    have hout : copyFromRing g.ring (f.botOffset + spanSum pre + 1) d.length [] =
        d := by
      rw [copyFromRing_eq]
      simp only [List.nil_append]
      apply List.ext_getElem
      · simp
      · intro i h1 h2
        have h2d : i < d.length := by simpa using h2
        simp only [List.getElem_map, List.getElem_range]
        have hp := hpay i h2d
        rw [wrapP, if_pos (by omega)] at hp
        rw [← List.getD_eq_getElem d 0 h2d]
        exact hp
    rw [hout]
    simp only [ReadDataResult.mk.injEq]
    refine ⟨trivial, trivial, trivial, ?_, trivial⟩
    rw [nextOf]
    by_cases hq : f.botOffset + spanSum pre + d.length + 1 < f.rBufSize
    · rw [if_pos hq, if_pos hq]
    · rw [if_neg hq, if_neg hq]
      omega

theorem read_frame (f : FIFOEE) (sz : Nat) :
    (read f sz).2.1.rBufSize = f.rBufSize ∧
    (read f sz).2.1.botOffset = f.botOffset ∧
    (read f sz).2.1.ring = f.ring ∧
    (read f sz).2.1.pPush = f.pPush ∧
    (read f sz).2.1.pPop = f.pPop := by
  unfold read
  dsimp only
  split
  · exact ⟨rfl, rfl, rfl, rfl, rfl⟩
  · split
    · exact ⟨rfl, rfl, rfl, rfl, rfl⟩
    · exact ⟨rfl, rfl, rfl, rfl, rfl⟩

theorem readSeq_frame (szs : List Nat) : ∀ f : FIFOEE,
    (readSeq f szs).2.rBufSize = f.rBufSize ∧
    (readSeq f szs).2.botOffset = f.botOffset ∧
    (readSeq f szs).2.ring = f.ring ∧
    (readSeq f szs).2.pPush = f.pPush ∧
    (readSeq f szs).2.pPop = f.pPop := by
  induction szs with
  | nil => intro f; exact ⟨rfl, rfl, rfl, rfl, rfl⟩
  | cons sz rest ih =>
    intro f
    rw [readSeq]
    dsimp only
    have h1 := ih (read f sz).2.1
    have h2 := read_frame f sz
    exact ⟨h1.1.trans h2.1, h1.2.1.trans h2.2.1, h1.2.2.1.trans h2.2.2.1,
      h1.2.2.2.1.trans h2.2.2.2.1, h1.2.2.2.2.trans h2.2.2.2.2⟩

theorem chain_head_byte (f : FIFOEE) (bs : List Blk) (hC : ChainOK f bs)
    (pre : List Blk) (d : List Nat) (post : List Blk)
    (hbs : bs = pre ++ ((false : Bool), d) :: post) :
    f.ring.getD (f.botOffset + spanSum pre) 0 = d.length := by
  have hpos := chain_pos_bound f bs hC pre _ post hbs
  have h0 := ring_unrolled f bs hC (spanSum pre) (by omega)
  rw [wrapP, if_pos hpos.1] at h0
  rw [h0, hbs, render_getD_header]
  simp [blkHeader]

theorem readData_small (g : FIFOEE) (P sizeIn L : Nat)
    (hhead : g.ring.getD P 0 = L) (hL : L ≤ 127) (h : sizeIn < L) :
    (readData g P sizeIn).status = DATA_BUFFER_SMALL := by
  unfold readData
  dsimp only
  rw [hhead, show L &&& 127 = L by rw [and127_eq]; omega]
  rw [if_pos (by omega)]

/-- Parallel traversal: starting from the same queue position of a valid
chain, a sequence of `pop` calls returns exactly the same
(status, data, size) triples as a sequence of `read` calls with the same
size arguments, provided every `read` succeeded.  The pop-side state `g`
may already have earlier queue headers rewritten, as long as its ring
agrees with the chain state's ring on the spans of the remaining queue
blocks. -/
theorem readpop_parallel (f : FIFOEE) (bs : List Blk) (hC : ChainOK f bs) :
    ∀ (szs : List Nat) (Q : List (Nat × List Nat)) (P0 : Nat) (fr g : FIFOEE),
      QChain bs f.botOffset f.rBufSize f.pPush P0 Q →
      fr.rBufSize = f.rBufSize → fr.ring = f.ring →
      fr.pPush = f.pPush → fr.pRead = P0 →
      g.rBufSize = f.rBufSize → g.pPush = f.pPush → g.pPop = P0 → g.pRead = P0 →
      (∀ pd ∈ Q, ∀ t, t ≤ pd.2.length →
        g.ring.getD (wrapP f.rBufSize (pd.1 + t)) 0 =
          f.ring.getD (wrapP f.rBufSize (pd.1 + t)) 0) →
      (∀ out ∈ (readSeq fr szs).1, out.1 = SUCCESS) →
      (popSeq g szs).1 = (readSeq fr szs).1 := by
  intro szs
  induction szs with
  | nil =>
    intro Q P0 fr g _ _ _ _ _ _ _ _ _ _ _
    rfl
  | cons sz rest ih =>
    intro Q P0 fr g hQ hfrR hfrr hfrpu hfrrd hgR hgpu hgpo hgrd hgag hsucc
    cases Q with
    | nil =>
      have hP : P0 = f.pPush := hQ
      have hrd : read fr sz = (FIFO_EMPTY, fr, [], sz) := by
        unfold read
        rw [if_pos (by rw [hfrrd, hfrpu, hP])]
      have hh := hsucc ((read fr sz).1, (read fr sz).2.2.1, (read fr sz).2.2.2)
        (by rw [readSeq]; exact List.mem_cons_self _ _)
      rw [hrd] at hh
      simp [FIFO_EMPTY, SUCCESS] at hh
    | cons pd Q2 =>
      obtain ⟨P, d⟩ := pd
      obtain ⟨hP0, ⟨pre, post, hbs, hPeq⟩, hdisj, hQ2⟩ := hQ
      subst hP0
      have hwfd : blkWF ((false : Bool), d) := hC.wf _ (by rw [hbs]; simp)
      have h127d : d.length ≤ 127 := hwfd.1
      by_cases hPP : P0 = f.pPush
      · have hrd : read fr sz = (FIFO_EMPTY, fr, [], sz) := by
          unfold read
          rw [if_pos (by rw [hfrrd, hfrpu, hPP])]
        have hh := hsucc ((read fr sz).1, (read fr sz).2.2.1, (read fr sz).2.2.2)
          (by rw [readSeq]; exact List.mem_cons_self _ _)
        rw [hrd] at hh
        simp [FIFO_EMPTY, SUCCESS] at hh
      · have hhb : fr.ring.getD P0 0 = d.length := by
          rw [hfrr, hPeq]
          exact chain_head_byte f bs hC pre d post hbs
        by_cases hsz : d.length ≤ sz
        · have hfr_rd : readData fr P0 sz =
              ⟨SUCCESS, d, d.length, nextOf f.rBufSize P0 d.length,
                d.length + 1⟩ := by
            have h := readData_block f bs hC pre d post hbs fr hfrR
              (fun t ht => by rw [hfrr]) sz hsz
            rw [← hPeq] at h
            exact h
          have hg_rd : readData g P0 sz =
              ⟨SUCCESS, d, d.length, nextOf f.rBufSize P0 d.length,
                d.length + 1⟩ := by
            have h := readData_block f bs hC pre d post hbs g hgR
              (fun t ht => by
                have h2 := hgag (P0, d) (List.mem_cons_self _ _) t ht
                rw [hPeq] at h2
                exact h2) sz hsz
            rw [← hPeq] at h
            exact h
          have hread : read fr sz =
              (SUCCESS, { fr with pRead := nextOf f.rBufSize P0 d.length },
                d, d.length) := by
            unfold read
            dsimp only
            rw [hfrrd]
            rw [if_neg (by rw [hfrpu]; exact hPP)]
            rw [hfr_rd]
            dsimp only
            rw [if_neg (by simp [SUCCESS])]
          have hvset : (128 ||| (d.length + 1 - 1)) % 256 = 128 + d.length := by
            rw [show d.length + 1 - 1 = d.length by omega, lor128 _ h127d]
            exact Nat.mod_eq_of_lt (by omega)
          have hpop : pop g sz =
              (SUCCESS, { g with
                  ring := g.ring.set P0 (128 + d.length),
                  pPop := nextOf f.rBufSize P0 d.length,
                  pRead := nextOf f.rBufSize P0 d.length }, d, d.length) := by
            unfold pop
            dsimp only
            rw [hgpo]
            rw [if_neg (by rw [hgpu]; exact hPP)]
            rw [hg_rd]
            dsimp only
            rw [if_neg (by simp [SUCCESS])]
            rw [hvset, hgrd]
            rw [if_pos rfl]
          rw [popSeq, readSeq]
          dsimp only
          rw [hread, hpop]
          dsimp only
          refine congrArg (List.cons (SUCCESS, d, d.length)) ?_
          refine ih Q2 (nextOf f.rBufSize P0 d.length) _ _ hQ2 hfrR hfrr hfrpu rfl
            hgR hgpu rfl rfl ?_ ?_
          · intro pd hm t ht
            have hne : wrapP f.rBufSize (pd.1 + t) ≠ P0 := hdisj pd hm t ht
            dsimp only
            rw [getD_set_ne _ _ (fun he => hne he.symm)]
            exact hgag pd (List.mem_cons_of_mem _ hm) t ht
          · intro out hout
            refine hsucc out ?_
            rw [readSeq]
            dsimp only
            rw [hread]
            exact List.mem_cons_of_mem _ hout
        · have hst : (readData fr P0 sz).status = DATA_BUFFER_SMALL :=
            readData_small fr P0 sz d.length hhb h127d (by omega)
          have hrd1 : (read fr sz).1 = DATA_BUFFER_SMALL := by
            unfold read
            dsimp only
            rw [hfrrd]
            rw [if_neg (by rw [hfrpu]; exact hPP)]
            rw [if_pos (by rw [hst]; simp [DATA_BUFFER_SMALL, SUCCESS])]
            exact hst
          have hh := hsucc ((read fr sz).1, (read fr sz).2.2.1, (read fr sz).2.2.2)
            (by rw [readSeq]; exact List.mem_cons_self _ _)
          dsimp only at hh
          rw [hrd1] at hh
          simp [DATA_BUFFER_SMALL, SUCCESS] at hh

theorem runQ_mem (run : List Blk) :
    ∀ (base : Nat) (pd : Nat × List Nat), pd ∈ runQ base run →
      base ≤ pd.1 ∧
        ∃ b ∈ run, pd.2 = b.2 ∧ pd.1 + blkSpan b ≤ base + spanSum run := by
  induction run with
  | nil =>
    intro base pd h
    simp [runQ] at h
  | cons b run ih =>
    intro base pd h
    rw [runQ] at h
    rcases List.mem_cons.mp h with rfl | h2
    · exact ⟨le_refl _, b, by simp, rfl, by rw [spanSum_cons]; omega⟩
    · obtain ⟨h1, c, hc, h3, h4⟩ := ih (base + blkSpan b) pd h2
      exact ⟨by omega, c, List.mem_cons_of_mem _ hc, h3, by rw [spanSum_cons]; omega⟩

theorem nextOf_eq_wrapP (R P len : Nat) : nextOf R P len = wrapP R (P + len + 1) := rfl

/-- A maximal used run of a valid chain forms a queue chain: each block
links to the next by `readData`'s advance rule, and the end pointer is the
offset just past the run (wrapping at the ring end when the run closes the
chain). -/
theorem qchain_run (f : FIFOEE) (bs : List Blk) (hC : ChainOK f bs) :
    ∀ (U : List Blk), U ≠ [] → ∀ (pre post : List Blk),
      bs = pre ++ U ++ post → allUsed U →
      QChain bs f.botOffset f.rBufSize
        (wrapP f.rBufSize (f.botOffset + spanSum pre + spanSum U))
        (f.botOffset + spanSum pre) (runQ (f.botOffset + spanSum pre) U) := by
  intro U
  induction U with
  | nil =>
    intro h
    exact absurd rfl h
  | cons b U2 ih =>
    intro _ pre post hbs hu
    obtain ⟨sb, db⟩ := b
    have hsb : sb = false := hu (sb, db) (by simp)
    subst hsb
    have hdecomp : bs = pre ++ ((false : Bool), db) :: (U2 ++ post) := by
      rw [hbs]; simp
    have hpos := chain_pos_bound f bs hC pre _ _ hdecomp
    have hspan : blkSpan ((false : Bool), db) = db.length + 1 := rfl
    have hRsum : f.rBufSize = spanSum bs := hC.rsize
    have hsum2 : spanSum bs = spanSum pre + (blkSpan ((false : Bool), db) +
        (spanSum U2 + spanSum post)) := by
      rw [hdecomp, spanSum_append, spanSum_cons, spanSum_append]
    rw [runQ]
    refine ⟨rfl, ⟨pre, U2 ++ post, hdecomp, rfl⟩, ?_, ?_⟩
    · intro pd hm t ht
      obtain ⟨hge, c, hcm, hceq, hbound⟩ :=
        runQ_mem U2 (f.botOffset + spanSum pre + blkSpan ((false : Bool), db)) pd hm
      have hclen : pd.2.length + 1 = blkSpan c := by rw [hceq]; rfl
      have hbig : pd.1 + pd.2.length < f.botOffset + f.rBufSize := by omega
      unfold wrapP
      split
      · omega
      · omega
    · cases U2 with
      | nil =>
        show nextOf f.rBufSize (f.botOffset + spanSum pre) db.length =
          wrapP f.rBufSize
            (f.botOffset + spanSum pre + spanSum [((false : Bool), db)])
        rw [nextOf_eq_wrapP]
        congr 1
      | cons c U3 =>
        have hbs2 : bs = (pre ++ [((false : Bool), db)]) ++ (c :: U3) ++ post := by
          rw [hbs]; simp
        have hih := ih (by simp) (pre ++ [((false : Bool), db)]) post hbs2
          (fun x hx => hu x (by simp [hx]))
        have heq1 : spanSum (pre ++ [((false : Bool), db)]) =
            spanSum pre + blkSpan ((false : Bool), db) := by
          rw [spanSum_append]
          simp [spanSum]
        rw [heq1] at hih
        rw [show f.botOffset + (spanSum pre + blkSpan ((false : Bool), db)) =
          f.botOffset + spanSum pre + blkSpan ((false : Bool), db) by omega] at hih
        have hposc := chain_pos_bound f bs hC (pre ++ [((false : Bool), db)]) c
          (U3 ++ post) (by rw [hbs]; simp)
        rw [heq1] at hposc
        have hnext : nextOf f.rBufSize (f.botOffset + spanSum pre) db.length =
            f.botOffset + spanSum pre + blkSpan ((false : Bool), db) := by
          unfold nextOf
          rw [if_pos (by omega)]
          omega
        rw [hnext]
        rw [show f.botOffset + spanSum pre + blkSpan ((false : Bool), db) +
            spanSum (c :: U3) =
          f.botOffset + spanSum pre + spanSum (((false : Bool), db) :: c :: U3) by
          rw [spanSum_cons (((false : Bool), db)) (c :: U3)]; omega] at hih
        exact hih

theorem QChain_append (bs : List Blk) (bot R pEnd mid : Nat)
    (Q2 : List (Nat × List Nat)) :
    ∀ (Q1 : List (Nat × List Nat)) (p : Nat),
      QChain bs bot R mid p Q1 →
      QChain bs bot R pEnd mid Q2 →
      (∀ pd1 ∈ Q1, ∀ pd ∈ Q2, ∀ t, t ≤ pd.2.length → wrapP R (pd.1 + t) ≠ pd1.1) →
      QChain bs bot R pEnd p (Q1 ++ Q2) := by
  intro Q1
  induction Q1 with
  | nil =>
    intro p h1 h2 _
    have hp : p = mid := h1
    rw [List.nil_append, hp]
    exact h2
  | cons pd1 Q1t ih =>
    intro p h1 h2 hcross
    obtain ⟨P, d⟩ := pd1
    obtain ⟨hP, hdec, hdisj, htail⟩ := h1
    refine ⟨hP, hdec, ?_, ?_⟩
    · intro pd hm t ht
      rcases List.mem_append.mp hm with hm1 | hm2
      · exact hdisj pd hm1 t ht
      · exact hcross (P, d) (List.mem_cons_self _ _) pd hm2 t ht
    · exact ih (nextOf R P d.length) htail h2
        (fun pd1 hm => hcross pd1 (List.mem_cons_of_mem _ hm))

/-- Every valid cursor layout yields a queue chain from `pPop` to
`pPush`. -/
theorem qchain_exists (f : FIFOEE) (bs : List Blk) (hC : ChainOK f bs)
    (hK : CursorsOK f bs) :
    ∃ Q, QChain bs f.botOffset f.rBufSize f.pPush f.pPop Q := by
  have hR : f.rBufSize = spanSum bs := hC.rsize
  have hbotlt : f.botOffset < f.rBufSize := by
    have h1 := hC.bot_lt
    have h2 := lastSpan_le_spanSum bs hC.nonempty
    omega
  rcases hK with ⟨F1, U, F2, hbs, hf1, hu, hf2, hcase⟩ |
    ⟨U2, Fr, U1, hbs, hu2, hfr, hu1, hne2, hne1, hnef, hpop, hpush, _⟩
  · rcases hcase with ⟨hU, hpp, _, _⟩ | ⟨hUne, hpo, hpu, _⟩
    · refine ⟨[], ?_⟩
      show f.pPop = f.pPush
      rw [hpp]
    · have h := qchain_run f bs hC U hUne F1 F2 hbs hu
      have hEnd : wrapP f.rBufSize (f.botOffset + spanSum F1 + spanSum U) =
          f.pPush := by
        rw [hpu]
        by_cases hF2 : F2 = []
        · rw [if_pos hF2]
          subst hF2
          have hsum : spanSum bs = spanSum F1 + spanSum U := by
            rw [hbs, spanSum_append, spanSum_append]
            simp [spanSum]
          unfold wrapP
          rw [if_neg (by omega)]
          omega
        · rw [if_neg hF2]
          obtain ⟨c, F2p, rfl⟩ : ∃ c F2p, F2 = c :: F2p := by
            cases F2 with
            | nil => exact absurd rfl hF2
            | cons c F2p => exact ⟨c, F2p, rfl⟩
          have hposc := chain_pos_bound f bs hC (F1 ++ U) c F2p (by rw [hbs])
          rw [spanSum_append] at hposc
          unfold wrapP
          rw [if_pos (by omega)]
      rw [hEnd] at h
      rw [hpo]
      exact ⟨_, h⟩
  · have h1 := qchain_run f bs hC U1 hne1 (U2 ++ Fr) [] (by rw [hbs]; simp) hu1
    have h2 := qchain_run f bs hC U2 hne2 [] (Fr ++ U1) (by rw [hbs]; simp) hu2
    have hsumbs : spanSum bs = spanSum U2 + spanSum Fr + spanSum U1 := by
      rw [hbs, spanSum_append, spanSum_append]
    rw [spanSum_append] at h1
    rw [show f.botOffset + (spanSum U2 + spanSum Fr) =
      f.botOffset + spanSum U2 + spanSum Fr by omega] at h1
    have hEnd1 : wrapP f.rBufSize
        (f.botOffset + spanSum U2 + spanSum Fr + spanSum U1) = f.botOffset := by
      unfold wrapP
      rw [if_neg (by omega)]
      omega
    rw [hEnd1] at h1
    obtain ⟨cf, Fp, rfl⟩ : ∃ cf Fp, Fr = cf :: Fp := by
      cases Fr with
      | nil => exact absurd rfl hnef
      | cons cf Fp => exact ⟨cf, Fp, rfl⟩
    have hposf := chain_pos_bound f bs hC U2 cf (Fp ++ U1) (by rw [hbs]; simp)
    have h0span : spanSum ([] : List Blk) = 0 := rfl
    have hEnd2 : wrapP f.rBufSize (f.botOffset + spanSum ([] : List Blk) +
        spanSum U2) = f.pPush := by
      rw [hpush]
      unfold wrapP
      rw [h0span]
      have hp1 := hposf.1
      rw [if_pos (by omega)]
      omega
    rw [hEnd2] at h2
    rw [show f.botOffset + spanSum ([] : List Blk) = f.botOffset by
      simp [spanSum]] at h2
    have hcross : ∀ pd1 ∈ runQ (f.botOffset + spanSum U2 + spanSum (cf :: Fp)) U1,
        ∀ pd ∈ runQ f.botOffset U2, ∀ t, t ≤ pd.2.length →
          wrapP f.rBufSize (pd.1 + t) ≠ pd1.1 := by
      intro pd1 hm1 pd hm t ht
      obtain ⟨hge1, c1, hc1, hceq1, hb1⟩ := runQ_mem U1 _ pd1 hm1
      obtain ⟨hge, c, hc, hceq, hb⟩ := runQ_mem U2 _ pd hm
      have hclen : pd.2.length + 1 = blkSpan c := by rw [hceq]; rfl
      unfold wrapP
      split
      · omega
      · omega
    have happ := QChain_append bs f.botOffset f.rBufSize f.pPush f.botOffset
      (runQ f.botOffset U2) _ _ h1 h2 hcross
    rw [hpop]
    exact ⟨_, happ⟩

/-- Claim C8 (amended: the claim additionally needs `read_p = pop_p` when
the reads start — `read` consumes from `read_p`, `pop` from `pop_p`, so if
the read cursor is already ahead the pops return earlier records than the
reads saw, see the counterexample).  With that premise: any sequence of
successful reads changes nothing but `read_p` (ring bytes, the anchor,
`pop_p` and `push_p` are untouched), `restartRead` puts `read_p` back on
`pop_p`, and the subsequent pops return exactly the same
(status, data, size) results, bytewise, that the reads saw. -/
theorem claim8_read_nondestructive (f : FIFOEE) (bs : List Blk)
    (hC : ChainOK f bs) (hK : CursorsOK f bs) (hr : f.pRead = f.pPop)
    (szs : List Nat)
    (hsucc : ∀ out ∈ (readSeq f szs).1, out.1 = SUCCESS) :
    (readSeq f szs).2.ring = f.ring ∧
    (readSeq f szs).2.botOffset = f.botOffset ∧
    (readSeq f szs).2.pPop = f.pPop ∧
    (readSeq f szs).2.pPush = f.pPush ∧
    (restartRead (readSeq f szs).2).pRead = f.pPop ∧
    (popSeq (restartRead (readSeq f szs).2) szs).1 = (readSeq f szs).1 := by
  have hfr := readSeq_frame szs f
  obtain ⟨Q, hQ⟩ := qchain_exists f bs hC hK
  refine ⟨hfr.2.2.1, hfr.2.1, hfr.2.2.2.2, hfr.2.2.2.1, hfr.2.2.2.2, ?_⟩
  refine readpop_parallel f bs hC szs Q f.pPop f _ hQ rfl rfl rfl hr
    hfr.1 hfr.2.2.2.1 hfr.2.2.2.2 hfr.2.2.2.2 ?_ hsucc
  intro pd hm t ht
  show (readSeq f szs).2.ring.getD _ 0 = f.ring.getD _ 0
  rw [hfr.2.2.1]

theorem claim8_counterexample :
    ChainOK ⟨9, 0, [2, 170, 187, 1, 204, 131, 0, 0, 0], 5, 0, 3⟩
      [(false, [170, 187]), (false, [204]), (true, [0, 0, 0])] ∧
    CursorsOK ⟨9, 0, [2, 170, 187, 1, 204, 131, 0, 0, 0], 5, 0, 3⟩
      [(false, [170, 187]), (false, [204]), (true, [0, 0, 0])] ∧
    (readSeq ⟨9, 0, [2, 170, 187, 1, 204, 131, 0, 0, 0], 5, 0, 3⟩ [16]).1 =
      [(SUCCESS, [204], 1)] ∧
    (popSeq (restartRead
        (readSeq ⟨9, 0, [2, 170, 187, 1, 204, 131, 0, 0, 0], 5, 0, 3⟩ [16]).2)
      [16]).1 = [(SUCCESS, [170, 187], 2)] ∧
    [(SUCCESS, ([204] : List Nat), (1 : Nat))] ≠ [(SUCCESS, [170, 187], 2)] := by
  refine ⟨?_, ?_, by decide, by decide, by decide⟩
  · exact
      { nonempty := by simp
        wf := by decide
        rsize := by decide
        rring := by decide
        bot_lt := by decide
        free_ex := by decide }
  · left
    exact ⟨[], [((false : Bool), [170, 187]), ((false : Bool), [204])],
      [((true : Bool), [0, 0, 0])], rfl, by decide, by decide, by decide,
      Or.inr ⟨by simp, by decide, by decide, Or.inl (by decide)⟩⟩

theorem claim8_read_nondestructive_witness :
    (readSeq ⟨9, 0, [2, 170, 187, 1, 204, 131, 0, 0, 0], 5, 0, 0⟩ [16, 16]).2.ring =
      [2, 170, 187, 1, 204, 131, 0, 0, 0] ∧
    (popSeq (restartRead
        (readSeq ⟨9, 0, [2, 170, 187, 1, 204, 131, 0, 0, 0], 5, 0, 0⟩ [16, 16]).2)
      [16, 16]).1 =
      (readSeq ⟨9, 0, [2, 170, 187, 1, 204, 131, 0, 0, 0], 5, 0, 0⟩ [16, 16]).1 := by
  have hC : ChainOK ⟨9, 0, [2, 170, 187, 1, 204, 131, 0, 0, 0], 5, 0, 0⟩
      [(false, [170, 187]), (false, [204]), (true, [0, 0, 0])] :=
    { nonempty := by simp
      wf := by decide
      rsize := by decide
      rring := by decide
      bot_lt := by decide
      free_ex := by decide }
  have hK : CursorsOK ⟨9, 0, [2, 170, 187, 1, 204, 131, 0, 0, 0], 5, 0, 0⟩
      [(false, [170, 187]), (false, [204]), (true, [0, 0, 0])] := by
    left
    exact ⟨[], [((false : Bool), [170, 187]), ((false : Bool), [204])],
      [((true : Bool), [0, 0, 0])], rfl, by decide, by decide, by decide,
      Or.inr ⟨by simp, by decide, by decide, Or.inl (by decide)⟩⟩
  have h := claim8_read_nondestructive
    ⟨9, 0, [2, 170, 187, 1, 204, 131, 0, 0, 0], 5, 0, 0⟩
    [(false, [170, 187]), (false, [204]), (true, [0, 0, 0])] hC hK rfl
    [16, 16] (by decide)
  exact ⟨h.1, h.2.2.2.2.2⟩

end FIFOEE
